import Mathlib

/-!
# Formal model of `s2e_env/execution_trace/modules.py`

A shallow embedding of the module map used by the s2e-env execution-trace
analyzer, together with proofs about its behaviour.

Modelling decisions, all taken from the Python source:

* Python integers (pids, addresses, sizes) are modelled as `Nat`; the source
  never subtracts below zero on the paths we model (the one subtraction, in
  `Module.to_native`, is performed on `Int` to match Python's unbounded
  signed arithmetic exactly).
* `SectionDescriptor.__lt__` is `self.runtime_load_base + self.size <=
  other.runtime_load_base`, and `__eq__` is derived from it via
  `not self < other and not other < self` (sections compare equal iff their
  runtime ranges overlap).  These become `sLt` and `sEq` below.
* `bisect.bisect_left` / `bisect.insort` from the CPython standard library
  are embedded as a genuine binary search (`bsearchLoop`), not as a linear
  scan, because on unsorted lists binary search and linear search differ.
* `immutables.Map` is a persistent hash map whose key equality is Python
  `hash` plus `__eq__`.  For keys `(pid, SectionDescriptor)` this works out
  to: equal pids, and sections with equal `(runtime_load_base, size)` and
  nonzero size (see `sKeyEq` below for the derivation).  The map itself is
  embedded as an association list with that key equivalence; `Map.delete`
  and `Map.__getitem__` raise `KeyError` on a missing key, `Map.get(k, d)`
  returns the default.
* The *values* of `_pid_to_sections` are mutable Python lists.  `add` and
  `remove` copy the list before mutating it, and clones share the old list
  objects, so aliasing matters for the snapshot-isolation property.  We make
  this explicit with a heap (`Heap`) of list cells addressed by `ListId`:
  `list.copy()` allocates a fresh cell, in-place mutation (`bisect.insort`,
  `del lst[i]`) writes to a cell, and `ModuleMap` stores cell ids.
* A raised Python exception leaves the partially-mutated object state in
  place, so every mutating operation returns the final state *and* an
  optional error, rather than an `Except` that discards the state.
-/

set_option maxHeartbeats 1000000

namespace S2E

/-- Embeds the Python class `SectionDescriptor` (fields set from the protobuf
section descriptor). -/
structure SectionDescriptor where
  name : String
  runtime_load_base : Nat
  native_load_base : Nat
  size : Nat
  readable : Bool
  writable : Bool
  executable : Bool
deriving DecidableEq, Inhabited

/-- `SectionDescriptor.contains`: `runtime_load_base <= pc < runtime_load_base + size`. -/
def SectionDescriptor.contains (s : SectionDescriptor) (pc : Nat) : Bool :=
  decide (s.runtime_load_base ≤ pc) && decide (pc < s.runtime_load_base + s.size)

/-- `SectionDescriptor.__lt__`: `self.runtime_load_base + self.size <= other.runtime_load_base`. -/
def sLt (a b : SectionDescriptor) : Bool :=
  decide (a.runtime_load_base + a.size ≤ b.runtime_load_base)

/-- `SectionDescriptor.__eq__`: `not self < other and not other < self`
(two sections are "equal" iff their runtime ranges overlap). -/
def sEq (a b : SectionDescriptor) : Bool :=
  !sLt a b && !sLt b a

/-- Embeds the Python class `Module` (fields set from the protobuf module
descriptor; `sections` keeps the descriptor's order).  `Module.__eq__`,
`__lt__` and `__hash__` are never exercised by the module-map code modelled
here (modules are only stored as map *values*), so plain structural equality
is used for the Lean type. -/
structure Module where
  name : String
  path : String
  pid : Nat
  sections : List SectionDescriptor
deriving DecidableEq, Inhabited

/-- `Module.get_section`: linear scan returning the first section that
contains `pc`, or `None`. -/
def Module.get_section (m : Module) (pc : Nat) : Option SectionDescriptor :=
  m.sections.find? (fun s => s.contains pc)

/-- `Module.to_native`: `pc - section.runtime_load_base + section.native_load_base`
for the containing section, or `None`.  Computed on `Int`, matching Python's
unbounded integer arithmetic. -/
def Module.to_native (m : Module) (pc : Nat) : Option Int :=
  match m.get_section pc with
  | none => none
  | some s => some ((pc : Int) - (s.runtime_load_base : Int) + (s.native_load_base : Int))

/-! ## Claim C9: `Module.to_native` -/

/-- C9: for every module `M` and address `pc`: if no section of `M` contains
`pc`, `M.to_native(pc)` returns no result; otherwise it returns
`pc - section.runtime_load_base + section.native_load_base` for the first
section of `M` (in list order) that contains `pc`. -/
theorem c9_to_native (m : Module) (pc : Nat) :
    ((∀ s ∈ m.sections, s.contains pc = false) → m.to_native pc = none)
    ∧ (∀ pre s post, m.sections = pre ++ s :: post →
        (∀ t ∈ pre, t.contains pc = false) → s.contains pc = true →
        m.to_native pc =
          some ((pc : Int) - (s.runtime_load_base : Int) + (s.native_load_base : Int))) := by
  constructor
  · intro hnone
    have hfind : m.sections.find? (fun s => s.contains pc) = none := by
      rw [List.find?_eq_none]
      intro s hs
      simp [hnone s hs]
    simp [Module.to_native, Module.get_section, hfind]
  · intro pre s post hsplit hpre hs
    have haux : ∀ l : List SectionDescriptor, (∀ t ∈ l, t.contains pc = false) →
        (l ++ s :: post).find? (fun t => t.contains pc) = some s := by
      intro l
      induction l with
      | nil => intro _; simp [List.find?_cons, hs]
      | cons t ts ih =>
          intro hl
          have ht : t.contains pc = false := hl t (by simp)
          have := ih (fun u hu => hl u (by simp [hu]))
          simpa [List.find?_cons, ht] using this
    have hfind : m.sections.find? (fun t => t.contains pc) = some s := by
      rw [hsplit]; exact haux pre hpre
    simp [Module.to_native, Module.get_section, hfind]

/-- Witness for `c9_to_native` at a concrete module: one address inside the
second section (first in list order that contains it), one address outside
all sections. -/
theorem c9_to_native_witness :
    Module.to_native ⟨"m", "/m", 7, [⟨"a", 0x1000, 0x400000, 0x100, true, false, true⟩]⟩ 0x1050
      = some 0x400050
    ∧ Module.to_native ⟨"m", "/m", 7, [⟨"a", 0x1000, 0x400000, 0x100, true, false, true⟩]⟩ 0x2000
      = none := by
  constructor
  · exact (c9_to_native _ 0x1050).2 [] ⟨"a", 0x1000, 0x400000, 0x100, true, false, true⟩ []
      rfl (by intro t ht; simp at ht) (by decide)
  · exact (c9_to_native _ 0x2000).1 (by intro s hs; simp at hs; subst hs; decide)

/-! ## The CPython `bisect` binary search

`bisect_left` and `bisect_right` share one loop shape:

    lo, hi = 0, len(a)
    while lo < hi:
        mid = (lo + hi) // 2
        if COND(mid): lo = mid + 1
        else: hi = mid
    return lo

where `COND(mid)` is `a[mid] < x` for `bisect_left` and `not (x < a[mid])`
for `bisect_right`.  `bsearchLoop` is that loop with the condition as a
parameter.  The loop is driven by explicit fuel: every iteration shrinks
`hi - lo` by at least one, so with any fuel of at least `hi - lo` (callers
pass `len(a)`) the fuel never runs out and the function is exactly the
CPython loop. -/

def bsearchLoop (p : Nat → Bool) : Nat → Nat → Nat → Nat
  | 0, lo, _ => lo
  | fuel + 1, lo, hi =>
      if lo < hi then
        if p ((lo + hi) / 2) then bsearchLoop p fuel ((lo + hi) / 2 + 1) hi
        else bsearchLoop p fuel lo ((lo + hi) / 2)
      else lo

/-- The loop result stays within the initial bracket. -/
theorem bsearchLoop_le (p : Nat → Bool) :
    ∀ n lo hi, hi - lo ≤ n → lo ≤ hi →
      lo ≤ bsearchLoop p n lo hi ∧ bsearchLoop p n lo hi ≤ hi := by
  intro n
  induction n with
  | zero =>
      intro lo hi hn hle
      simp only [bsearchLoop]
      omega
  | succ n ih =>
      intro lo hi hn hle
      by_cases h : lo < hi
      · simp only [bsearchLoop]
        rw [if_pos h]
        by_cases hp : p ((lo + hi) / 2) = true
        · rw [if_pos hp]
          have := ih ((lo + hi) / 2 + 1) hi (by omega) (by omega)
          omega
        · rw [if_neg hp]
          have := ih lo ((lo + hi) / 2) (by omega) (by omega)
          omega
      · simp only [bsearchLoop]
        rw [if_neg h]
        omega

/-- When the condition is downward closed on the bracket, the loop computes
the partition point: the condition holds strictly below the result and fails
from the result up to `hi`. -/
theorem bsearchLoop_partition (p : Nat → Bool) :
    ∀ n lo hi, hi - lo ≤ n →
      (∀ i j, lo ≤ i → i ≤ j → j < hi → p j = true → p i = true) → lo ≤ hi →
      (∀ j, lo ≤ j → j < bsearchLoop p n lo hi → p j = true) ∧
      (∀ j, bsearchLoop p n lo hi ≤ j → j < hi → p j = false) := by
  intro n
  induction n with
  | zero =>
      intro lo hi hn _ hle
      simp only [bsearchLoop]
      constructor
      · intro j h1 h2; omega
      · intro j h1 h2; omega
  | succ n ih =>
      intro lo hi hn hd hle
      by_cases h : lo < hi
      · simp only [bsearchLoop]
        rw [if_pos h]
        by_cases hp : p ((lo + hi) / 2) = true
        · rw [if_pos hp]
          have hb := bsearchLoop_le p n ((lo + hi) / 2 + 1) hi (by omega) (by omega)
          have hrec := ih ((lo + hi) / 2 + 1) hi (by omega)
            (fun i j hi1 hij hj hpj => hd i j (by omega) hij hj hpj) (by omega)
          constructor
          · intro j hj1 hj2
            by_cases hcase : j ≤ (lo + hi) / 2
            · exact hd j ((lo + hi) / 2) hj1 hcase (by omega) hp
            · exact hrec.1 j (by omega) hj2
          · exact hrec.2
        · rw [if_neg hp]
          have hb := bsearchLoop_le p n lo ((lo + hi) / 2) (by omega) (by omega)
          have hrec := ih lo ((lo + hi) / 2) (by omega)
            (fun i j hi1 hij hj hpj => hd i j hi1 hij (by omega) hpj) (by omega)
          constructor
          · exact hrec.1
          · intro j hj1 hj2
            by_cases hcase : j < (lo + hi) / 2
            · exact hrec.2 j hj1 hcase
            · by_cases hj : j = (lo + hi) / 2
              · subst hj; exact Bool.eq_false_iff.mpr hp
              · by_contra hf
                have hpj : p j = true := by
                  cases hpv : p j with
                  | true => rfl
                  | false => exact absurd hpv hf
                exact hp (hd ((lo + hi) / 2) j (by omega) (by omega) hj2 hpj)
      · simp only [bsearchLoop]
        rw [if_neg h]
        constructor
        · intro j h1 h2; omega
        · intro j h1 h2; omega

/-- `bisect.bisect_left(a, x)`: the loop with condition `a[mid] < x`. -/
def bisect_left (a : List SectionDescriptor) (x : SectionDescriptor) : Nat :=
  bsearchLoop (fun j => sLt (a.getD j default) x) a.length 0 a.length

/-- `bisect.bisect_right(a, x)` (what `bisect.insort` uses): the loop with
condition `not (x < a[mid])`. -/
def bisect_right (a : List SectionDescriptor) (x : SectionDescriptor) : Nat :=
  bsearchLoop (fun j => !sLt x (a.getD j default)) a.length 0 a.length

/-- `bisect.insort(a, x)`: insert `x` at position `bisect_right a x`. -/
def insort (a : List SectionDescriptor) (x : SectionDescriptor) : List SectionDescriptor :=
  List.insertIdx (bisect_right a x) x a

/-- `_index(sections, x)` from modules.py: binary search, then report the hit
only when the found slot compares equal (`sections[i] == x`, i.e. overlaps). -/
def _index (sections : List SectionDescriptor) (x : SectionDescriptor) : Option Nat :=
  if bisect_left sections x != sections.length
      && sEq (sections.getD (bisect_left sections x) default) x then
    some (bisect_left sections x)
  else
    none

/-! ## Sorted section lists

The index keeps, per pid, a list that is sorted by runtime address and
pairwise non-overlapping.  With the overlap-equality comparator this is
exactly `Pairwise (sLt · ·)`. -/

/-- Address-sorted and pairwise non-overlapping: each section lies entirely
below the next (and, by transitivity, below every later one). -/
def SSorted (l : List SectionDescriptor) : Prop :=
  l.Pairwise (fun a b => sLt a b = true)

theorem sLt_iff (a b : SectionDescriptor) :
    sLt a b = true ↔ a.runtime_load_base + a.size ≤ b.runtime_load_base := by
  simp [sLt]

theorem sEq_iff (a b : SectionDescriptor) :
    sEq a b = true ↔
      ¬ (a.runtime_load_base + a.size ≤ b.runtime_load_base)
      ∧ ¬ (b.runtime_load_base + b.size ≤ a.runtime_load_base) := by
  simp [sEq, sLt]

theorem sLt_false_iff (a b : SectionDescriptor) :
    sLt a b = false ↔ b.runtime_load_base < a.runtime_load_base + a.size := by
  simp [sLt]

theorem sEq_false_iff (a b : SectionDescriptor) :
    sEq a b = false ↔
      a.runtime_load_base + a.size ≤ b.runtime_load_base
      ∨ b.runtime_load_base + b.size ≤ a.runtime_load_base := by
  simp only [Bool.eq_false_iff, Ne, sEq_iff]
  omega

theorem contains_iff (s : SectionDescriptor) (pc : Nat) :
    s.contains pc = true ↔
      s.runtime_load_base ≤ pc ∧ pc < s.runtime_load_base + s.size := by
  simp [SectionDescriptor.contains]

theorem SSorted.getD_lt {a : List SectionDescriptor} (hs : SSorted a)
    {i j : Nat} (hij : i < j) (hj : j < a.length) :
    sLt (a.getD i default) (a.getD j default) = true := by
  have h := List.pairwise_iff_getElem.mp hs i j (by omega) hj hij
  rw [List.getD_eq_getElem a default (by omega), List.getD_eq_getElem a default hj]
  exact h

/-- Two sections of a sorted list that both contain the same address are the
same section. -/
theorem SSorted.contains_unique {a : List SectionDescriptor} (hs : SSorted a)
    {S T : SectionDescriptor} {pc : Nat} (hS : S ∈ a) (hT : T ∈ a)
    (hcS : S.contains pc = true) (hcT : T.contains pc = true) : S = T := by
  obtain ⟨i, hilt, hiS⟩ := List.mem_iff_getElem.mp hS
  obtain ⟨j, hjlt, hjT⟩ := List.mem_iff_getElem.mp hT
  rcases Nat.lt_trichotomy i j with h | h | h
  · have := List.pairwise_iff_getElem.mp hs i j hilt hjlt h
    rw [hiS, hjT, sLt_iff] at this
    rw [contains_iff] at hcS hcT
    omega
  · subst h; rw [← hiS, ← hjT]
  · have := List.pairwise_iff_getElem.mp hs j i hjlt hilt h
    rw [hjT, hiS, sLt_iff] at this
    rw [contains_iff] at hcS hcT
    omega

theorem bisect_left_le (a : List SectionDescriptor) (x : SectionDescriptor) :
    bisect_left a x ≤ a.length :=
  (bsearchLoop_le _ a.length 0 a.length (by omega) (by omega)).2

theorem bisect_right_le (a : List SectionDescriptor) (x : SectionDescriptor) :
    bisect_right a x ≤ a.length :=
  (bsearchLoop_le _ a.length 0 a.length (by omega) (by omega)).2

theorem bisect_left_partition {a : List SectionDescriptor} (hs : SSorted a)
    (x : SectionDescriptor) :
    (∀ j, j < bisect_left a x → sLt (a.getD j default) x = true) ∧
    (∀ j, bisect_left a x ≤ j → j < a.length → sLt (a.getD j default) x = false) := by
  have hd : ∀ i j, 0 ≤ i → i ≤ j → j < a.length →
      sLt (a.getD j default) x = true → sLt (a.getD i default) x = true := by
    intro i j _ hij hj hpj
    by_cases heq : i = j
    · subst heq; exact hpj
    · have hlt := hs.getD_lt (by omega) hj (i := i)
      rw [sLt_iff] at hlt hpj ⊢
      omega
  have h := bsearchLoop_partition _ a.length 0 a.length (by omega) hd (by omega)
  exact ⟨fun j hj => h.1 j (by omega) hj, h.2⟩

theorem bisect_right_partition {a : List SectionDescriptor} (hs : SSorted a)
    (x : SectionDescriptor) :
    (∀ j, j < bisect_right a x → sLt x (a.getD j default) = false) ∧
    (∀ j, bisect_right a x ≤ j → j < a.length → sLt x (a.getD j default) = true) := by
  have hd : ∀ i j, 0 ≤ i → i ≤ j → j < a.length →
      (!sLt x (a.getD j default)) = true → (!sLt x (a.getD i default)) = true := by
    intro i j _ hij hj hpj
    simp only [Bool.not_eq_true'] at hpj ⊢
    by_cases heq : i = j
    · subst heq; exact hpj
    · have hlt := hs.getD_lt (show i < j by omega) hj
      rw [sLt_iff] at hlt
      rw [sLt_false_iff] at hpj ⊢
      omega
  have h := bsearchLoop_partition _ a.length 0 a.length (by omega) hd (by omega)
  constructor
  · intro j hj
    have := h.1 j (by omega) hj
    simpa using this
  · intro j hj1 hj2
    have := h.2 j hj1 hj2
    simpa using this

theorem index_sound {a : List SectionDescriptor} {x : SectionDescriptor} {i : Nat}
    (h : _index a x = some i) :
    i < a.length ∧ sEq (a.getD i default) x = true ∧ i = bisect_left a x := by
  unfold _index at h
  split at h
  case isTrue hc =>
    obtain ⟨h1, h2⟩ := Bool.and_eq_true_iff.mp hc
    cases h
    refine ⟨?_, h2, rfl⟩
    have := bisect_left_le a x
    have hne : bisect_left a x ≠ a.length := by simpa using h1
    omega
  case isFalse => cases h

theorem index_prefix {a : List SectionDescriptor} (hs : SSorted a)
    {x : SectionDescriptor} {i : Nat} (h : _index a x = some i) :
    ∀ j, j < i → sLt (a.getD j default) x = true := by
  obtain ⟨_, _, hbl⟩ := index_sound h
  intro j hj
  exact (bisect_left_partition hs x).1 j (by omega)

/-- If some member of a sorted list overlaps `x`, `_index` reports a hit, and
the reported slot overlaps `x`. -/
theorem index_complete {a : List SectionDescriptor} (hs : SSorted a)
    {S x : SectionDescriptor} (hmem : S ∈ a) (hov : sEq S x = true) :
    _index a x = some (bisect_left a x)
      ∧ sEq (a.getD (bisect_left a x) default) x = true := by
  obtain ⟨k, hk, hkS⟩ := List.mem_iff_getElem.mp hmem
  have hpart := bisect_left_partition hs x
  have hkge : bisect_left a x ≤ k := by
    by_contra hlt
    have hsl := hpart.1 k (by omega)
    rw [List.getD_eq_getElem a default hk, hkS] at hsl
    rw [sEq_iff] at hov
    rw [sLt_iff] at hsl
    omega
  have hrlt : bisect_left a x < a.length := by omega
  have hnotlt : sLt (a.getD (bisect_left a x) default) x = false :=
    hpart.2 _ (le_refl _) hrlt
  have hnotgt : sLt x (a.getD (bisect_left a x) default) = false := by
    by_cases hk2 : k = bisect_left a x
    · rw [← hk2, List.getD_eq_getElem a default hk, hkS]
      rw [sEq_iff] at hov
      rw [sLt_false_iff]
      omega
    · have hord := hs.getD_lt (show bisect_left a x < k by omega) hk
      rw [sLt_iff] at hord
      rw [List.getD_eq_getElem a default hk, hkS] at hord
      rw [sEq_iff] at hov
      rw [sLt_false_iff]
      omega
  have hseq : sEq (a.getD (bisect_left a x) default) x = true := by
    unfold sEq
    rw [hnotlt, hnotgt]
    rfl
  refine ⟨?_, hseq⟩
  have hcond : (bisect_left a x != a.length
      && sEq (a.getD (bisect_left a x) default) x) = true := by
    rw [hseq]
    simp [bne_iff_ne]
    omega
  unfold _index
  rw [if_pos hcond]

theorem index_none_iff {a : List SectionDescriptor} (hs : SSorted a) (x : SectionDescriptor) :
    _index a x = none ↔ ∀ S ∈ a, sEq S x = false := by
  constructor
  · intro h S hmem
    cases hv : sEq S x with
    | false => rfl
    | true => rw [(index_complete hs hmem hv).1] at h; cases h
  · intro hall
    cases hv : _index a x with
    | none => rfl
    | some i =>
        obtain ⟨hlt, hseq, _⟩ := index_sound hv
        have hmem : a.getD i default ∈ a := by
          rw [List.getD_eq_getElem a default hlt]
          exact List.getElem_mem hlt
        rw [hall _ hmem] at hseq
        cases hseq

/-! ### insort and eraseIdx on sorted lists -/

theorem insertIdx_eq_take_cons_drop {α : Type} (x : α) :
    ∀ (n : Nat) (l : List α), n ≤ l.length →
      List.insertIdx n x l = l.take n ++ x :: l.drop n := by
  intro n
  induction n with
  | zero => intro l _; simp
  | succ n ih =>
      intro l hl
      cases l with
      | nil => simp at hl
      | cons hd tl =>
          simp only [List.insertIdx_succ_cons, List.take_succ_cons, List.drop_succ_cons,
            List.cons_append]
          rw [ih tl (by simpa using hl)]

theorem insort_mem {a : List SectionDescriptor} {x y : SectionDescriptor} :
    y ∈ insort a x ↔ y = x ∨ y ∈ a :=
  List.mem_insertIdx (bisect_right_le a x)

theorem insort_sorted {a : List SectionDescriptor} (hs : SSorted a) {x : SectionDescriptor}
    (hno : ∀ T ∈ a, sEq T x = false) : SSorted (insort a x) := by
  have hr := bisect_right_le a x
  have hpart := bisect_right_partition hs x
  rw [insort, insertIdx_eq_take_cons_drop _ _ _ hr]
  rw [SSorted, List.pairwise_append]
  have hmem_take : ∀ t ∈ a.take (bisect_right a x),
      ∃ i, i < bisect_right a x ∧ ∃ (h : i < a.length), a[i] = t := by
    intro t ht
    obtain ⟨i, hi, hit⟩ := List.mem_iff_getElem.mp ht
    have hi2 : i < bisect_right a x := by
      have := hi
      simp [List.length_take] at this
      omega
    have hi3 : i < a.length := by
      have := hi
      simp [List.length_take] at this
      omega
    refine ⟨i, hi2, hi3, ?_⟩
    rw [← hit, List.getElem_take]
  have hmem_drop : ∀ u ∈ a.drop (bisect_right a x),
      ∃ k, ∃ (h : bisect_right a x + k < a.length), a[bisect_right a x + k] = u := by
    intro u hu
    obtain ⟨k, hk, hku⟩ := List.mem_iff_getElem.mp hu
    have hk2 : bisect_right a x + k < a.length := by
      have := hk
      simp [List.length_drop] at this
      omega
    refine ⟨k, hk2, ?_⟩
    rw [← hku, List.getElem_drop]
  refine ⟨List.Pairwise.sublist (List.take_sublist _ _) hs, ?_, ?_⟩
  · rw [List.pairwise_cons]
    refine ⟨?_, List.Pairwise.sublist (List.drop_sublist _ _) hs⟩
    intro u hu
    obtain ⟨k, hk, hku⟩ := hmem_drop u hu
    have := hpart.2 (bisect_right a x + k) (by omega) hk
    rw [List.getD_eq_getElem a default hk, hku] at this
    exact this
  · intro t ht u hu
    obtain ⟨i, hi, hia, hit⟩ := hmem_take t ht
    rcases List.mem_cons.mp hu with rfl | hu2
    · have h1 := hpart.1 i hi
      rw [List.getD_eq_getElem a default hia, hit] at h1
      have h2 := hno t (by rw [← hit]; exact List.getElem_mem hia)
      rw [sEq_false_iff] at h2
      rw [sLt_false_iff] at h1
      rw [sLt_iff]
      omega
    · obtain ⟨k, hk, hku⟩ := hmem_drop u hu2
      have := List.pairwise_iff_getElem.mp hs i (bisect_right a x + k) hia hk (by omega)
      rw [hit, hku] at this
      exact this

theorem eraseIdx_sorted {a : List SectionDescriptor} (hs : SSorted a) (i : Nat) :
    SSorted (a.eraseIdx i) :=
  List.Pairwise.sublist (List.eraseIdx_sublist a i) hs

theorem mem_of_mem_eraseIdx {α : Type} {a : List α} {i : Nat} {y : α}
    (h : y ∈ a.eraseIdx i) : y ∈ a :=
  (List.eraseIdx_sublist a i).mem h

theorem getElem_mem_eraseIdx {α : Type} {a : List α} {k i : Nat}
    (hk : k < a.length) (hne : k ≠ i) : a[k] ∈ a.eraseIdx i := by
  rw [List.eraseIdx_eq_take_drop_succ]
  rcases Nat.lt_or_ge k i with h | h
  · apply List.mem_append_left
    rw [List.mem_iff_getElem]
    refine ⟨k, ?_, ?_⟩
    · simp [List.length_take]; omega
    · rw [List.getElem_take]
  · have hki : i < k := by omega
    apply List.mem_append_right
    rw [List.mem_iff_getElem]
    refine ⟨k - (i + 1), ?_, ?_⟩
    · simp [List.length_drop]; omega
    · rw [List.getElem_drop]
      congr 1
      omega

/-! ## The heap of Python list objects

`_pid_to_sections` stores mutable Python lists as its values.  `add` and
`remove` call `.copy()` before mutating (`bisect.insort`, `del lst[idx]`)
and commit the copy back with `Map.set`; clones share the map and therefore
the old list objects.  To reason about this aliasing we model the lists as
cells of a heap addressed by `ListId`: `.copy()` appends a fresh cell,
in-place mutation overwrites a cell, and `ModuleMap` stores cell ids. -/

abbrev ListId := Nat

abbrev Heap := List (List SectionDescriptor)

def heapGet : Heap → ListId → List SectionDescriptor
  | [], _ => []
  | c :: _, 0 => c
  | _ :: h, n + 1 => heapGet h n

def heapSet : Heap → ListId → List SectionDescriptor → Heap
  | [], _, _ => []
  | _ :: h, 0, v => v :: h
  | c :: h, n + 1, v => c :: heapSet h n v

/-- The exceptions the module map can raise, identified by raise site:
`invalidSection` is the zero-size `raise` in `add`; `pidNotFound` and
`addressNotMapped` are the two `raise`s in `get`; `keyError` is a Python
`KeyError` escaping from `immutables.Map.delete` or `Map.__getitem__`. -/
inductive PyErr where
  | invalidSection
  | pidNotFound
  | addressNotMapped
  | keyError
deriving DecidableEq

/-! ## The two `immutables.Map`s

`immutables.Map` is a persistent hash map; two keys denote the same slot iff
their Python hashes are equal and they compare `==`.  For a
`SectionDescriptor` key, `__hash__` is `hash((runtime_load_base, size))` and
`__eq__` is range overlap; with equal `runtime_load_base` and `size` the two
ranges overlap iff the size is nonzero, so the effective key equivalence is
"equal base, equal size, size nonzero" (`sKeyEq`).  Sections with zero size
match no key at all, which is faithful: the map never stores them (a
zero-size section makes `add` raise before any insertion) and a zero-size
probe hashes to a bucket holding no overlapping key. -/

def sKeyEq (a b : SectionDescriptor) : Bool :=
  decide (a.runtime_load_base = b.runtime_load_base) && decide (a.size = b.size)
    && decide (0 < a.size)

/-- `(pid, section)` key equivalence for `_section_to_module` (Python tuple
hash and equality: componentwise). -/
def keyEq (a b : Nat × SectionDescriptor) : Bool :=
  decide (a.1 = b.1) && sKeyEq a.2 b.2

/-- The `_section_to_module` map, as an association list under `keyEq`. -/
abbrev SMap := List ((Nat × SectionDescriptor) × Module)

/-- `Map.__getitem__` / `Map.get` without default: the value stored under a
matching key, if any. -/
def smLookup (m : SMap) (k : Nat × SectionDescriptor) : Option Module :=
  match m.find? (fun e => keyEq e.1 k) with
  | some e => some e.2
  | none => none

/-- `Map.set`: overwrite the value under a matching key (the stored key
object is kept, as in a Python dict), else add the binding. -/
def smSet (m : SMap) (k : Nat × SectionDescriptor) (v : Module) : SMap :=
  match m with
  | [] => [(k, v)]
  | e :: rest => if keyEq e.1 k then (e.1, v) :: rest else e :: smSet rest k v

/-- `Map.delete`: remove the binding under a matching key; `none` models the
`KeyError` raised when no key matches. -/
def smDelete (m : SMap) (k : Nat × SectionDescriptor) : Option SMap :=
  match m with
  | [] => none
  | e :: rest =>
      if keyEq e.1 k then some rest
      else
        match smDelete rest k with
        | some rest2 => some (e :: rest2)
        | none => none

/-- The `_pid_to_sections` map: plain integer keys, values are list cell
ids. -/
abbrev PMap := List (Nat × ListId)

def pmSet (m : PMap) (p : Nat) (v : ListId) : PMap :=
  match m with
  | [] => [(p, v)]
  | e :: rest => if e.1 = p then (p, v) :: rest else e :: pmSet rest p v

/-- `Map.delete` for integer keys; `none` models the `KeyError`. -/
def pmDelete (m : PMap) (p : Nat) : Option PMap :=
  match m with
  | [] => none
  | e :: rest =>
      if e.1 = p then some rest
      else
        match pmDelete rest p with
        | some rest2 => some (e :: rest2)
        | none => none

/-! ## `ModuleMap` -/

structure ModuleMap where
  pid_to_sections : PMap
  section_to_module : SMap
  kernel_start : Nat
deriving DecidableEq

/-- `ModuleMap.__init__`: empty maps, `kernel_start = 0xffffffffffffffff`. -/
def ModuleMap.init : ModuleMap :=
  ⟨[], [], 0xffffffffffffffff⟩

/-- `self._pid_to_sections.get(pid, [])`: the pid's current section list (a
heap cell's contents), or the empty list when the pid is untracked. -/
def pidSections (h : Heap) (st : ModuleMap) (pid : Nat) : List SectionDescriptor :=
  match List.lookup pid st.pid_to_sections with
  | some i => heapGet h i
  | none => []

/-- The `for section in mod.sections` loop of `ModuleMap.add`, acting on the
freshly copied list cell `n` and the running `_section_to_module` map:

* `if not section.size: raise ...` — `invalidSection`, loop aborted, state
  as mutated so far;
* overlap found by `_index`: the log message evaluates
  `self._section_to_module[(mod.pid, pid_sections[idx])]`, a lookup that
  raises `KeyError` if absent; otherwise the section is skipped;
* no overlap: `bisect.insort` into cell `n`, then
  `self._section_to_module = self._section_to_module.set((mod.pid, section), mod)`. -/
def addLoop (pid : Nat) (mod : Module) (n : ListId) :
    List SectionDescriptor → Heap → SMap → Heap × SMap × Option PyErr
  | [], h, sm => (h, sm, none)
  | s :: rest, h, sm =>
      if s.size = 0 then (h, sm, some PyErr.invalidSection)
      else
        match _index (heapGet h n) s with
        | some idx =>
            match smLookup sm (pid, (heapGet h n).getD idx default) with
            | none => (h, sm, some PyErr.keyError)
            | some _ => addLoop pid mod n rest h sm
        | none =>
            addLoop pid mod n rest
              (heapSet h n (insort (heapGet h n) s))
              (smSet sm (pid, s) mod)

/-- `ModuleMap.add(mod)`.
`pid_sections = self._pid_to_sections.get(mod.pid, []).copy()` allocates a
fresh cell (id `h.length`) holding a copy of the pid's current list (empty
if untracked); the loop mutates that cell; on normal completion
`self._pid_to_sections = self._pid_to_sections.set(mod.pid, pid_sections)`
commits the cell.  When the loop raises, the partially updated
`_section_to_module` keeps the assignments already made, while
`_pid_to_sections` is left untouched. -/
def ModuleMap.add (h : Heap) (st : ModuleMap) (mod : Module) :
    Heap × ModuleMap × Option PyErr :=
  match addLoop mod.pid mod h.length mod.sections (h ++ [pidSections h st mod.pid])
      st.section_to_module with
  | (h2, sm2, none) =>
      (h2, ⟨pmSet st.pid_to_sections mod.pid h.length, sm2, st.kernel_start⟩, none)
  | (h2, sm2, some e) =>
      (h2, ⟨st.pid_to_sections, sm2, st.kernel_start⟩, some e)

/-- The `for section in mod.sections` loop of `ModuleMap.remove`: find an
overlap match with `_index`, `del pid_sections[idx]` on the copied cell `n`,
then `self._section_to_module.delete((mod.pid, section))` — which raises
`KeyError` if no key matches, after the cell was already mutated — and only
then commit cell `n` into `_pid_to_sections`. -/
def removeLoop (pid : Nat) (n : ListId) :
    List SectionDescriptor → Heap → SMap → PMap → Heap × SMap × PMap × Option PyErr
  | [], h, sm, pm => (h, sm, pm, none)
  | s :: rest, h, sm, pm =>
      match _index (heapGet h n) s with
      | none => removeLoop pid n rest h sm pm
      | some idx =>
          match smDelete sm (pid, s) with
          | none => (heapSet h n ((heapGet h n).eraseIdx idx), sm, pm, some PyErr.keyError)
          | some sm2 =>
              removeLoop pid n rest (heapSet h n ((heapGet h n).eraseIdx idx)) sm2
                (pmSet pm pid n)

/-- `ModuleMap.remove(mod)`.  `self._pid_to_sections[mod.pid]` raises
`KeyError` when the pid is untracked; otherwise `.copy()` allocates a fresh
cell and the loop runs on it. -/
def ModuleMap.remove (h : Heap) (st : ModuleMap) (mod : Module) :
    Heap × ModuleMap × Option PyErr :=
  match List.lookup mod.pid st.pid_to_sections with
  | none => (h, st, some PyErr.keyError)
  | some i =>
      match removeLoop mod.pid h.length mod.sections (h ++ [heapGet h i])
          st.section_to_module st.pid_to_sections with
      | (h2, sm2, pm2, e) => (h2, ⟨pm2, sm2, st.kernel_start⟩, e)

/-- Sequential `Map.delete` of the given keys (the `for k, _ in
self._section_to_module.items()` loop body of `remove_pid`). -/
def smDeleteAll (ks : List (Nat × SectionDescriptor)) (m : SMap) : SMap × Option PyErr :=
  match ks with
  | [] => (m, none)
  | k :: rest =>
      match smDelete m k with
      | none => (m, some PyErr.keyError)
      | some m2 => smDeleteAll rest m2

/-- `ModuleMap.remove_pid(pid)`: `self._pid_to_sections.delete(pid)` raises
`KeyError` when the pid is untracked; then the loop iterates over the items
of `_section_to_module` as it was before the loop and deletes every key
whose first component is `pid`, reassigning the map each time. -/
def ModuleMap.remove_pid (h : Heap) (st : ModuleMap) (pid : Nat) :
    Heap × ModuleMap × Option PyErr :=
  match pmDelete st.pid_to_sections pid with
  | none => (h, st, some PyErr.keyError)
  | some pm2 =>
      match smDeleteAll
          ((st.section_to_module.filter (fun e => decide (e.1.1 = pid))).map (·.1))
          st.section_to_module with
      | (sm2, e) => (h, ⟨pm2, sm2, st.kernel_start⟩, e)

/-- `ModuleMap._translate_pid`: `if pc >= self._kernel_start: return 0`. -/
def ModuleMap._translate_pid (st : ModuleMap) (pid pc : Nat) : Nat :=
  if st.kernel_start ≤ pc then 0 else pid

/-- The search sentinel `get` builds: `SectionDescriptor(None)` with only
`runtime_load_base = pc` and `size = 1` assigned; the comparator never reads
the other attributes, so their values here are immaterial. -/
def sentinel (pc : Nat) : SectionDescriptor :=
  ⟨"", pc, 0, 1, false, false, false⟩

/-- `ModuleMap.get(pid, pc)`: kernel translation, `PidNotFound` for an
untracked pid, `_index` with the sentinel, `AddressNotMapped` on a miss,
else the module stored under `(pid, sections[idx])`. -/
def ModuleMap.get (h : Heap) (st : ModuleMap) (pid pc : Nat) : Except PyErr Module :=
  match List.lookup (st._translate_pid pid pc) st.pid_to_sections with
  | none => Except.error PyErr.pidNotFound
  | some i =>
      match _index (heapGet h i) (sentinel pc) with
      | none => Except.error PyErr.addressNotMapped
      | some idx =>
          match smLookup st.section_to_module
              (st._translate_pid pid pc, (heapGet h i).getD idx default) with
          | none => Except.error PyErr.keyError
          | some m => Except.ok m

/-- `ModuleMap.clone()`: a new instance sharing both persistent maps (and
therefore the list cells they reference) and copying `kernel_start`. -/
def ModuleMap.clone (st : ModuleMap) : ModuleMap :=
  ⟨st.pid_to_sections, st.section_to_module, st.kernel_start⟩

/-- The `kernel_start` property setter. -/
def ModuleMap.set_kernel_start (st : ModuleMap) (pc : Nat) : ModuleMap :=
  ⟨st.pid_to_sections, st.section_to_module, pc⟩

/-- One mutating driver call on the index. -/
inductive MOp where
  | opAdd (mod : Module)
  | opRemove (mod : Module)
  | opRemovePid (pid : Nat)

def runOp (h : Heap) (st : ModuleMap) : MOp → Heap × ModuleMap × Option PyErr
  | MOp.opAdd mod => ModuleMap.add h st mod
  | MOp.opRemove mod => ModuleMap.remove h st mod
  | MOp.opRemovePid pid => ModuleMap.remove_pid h st pid

/-- Run a sequence of driver calls.  A raised exception leaves the object in
its partially updated state, which is what the next call sees. -/
def runOps (h : Heap) (st : ModuleMap) : List MOp → Heap × ModuleMap
  | [] => (h, st)
  | op :: ops =>
      match runOp h st op with
      | (h2, st2, _) => runOps h2 st2 ops

/-! ## Heap lemmas -/

theorem length_heapSet (h : Heap) (n : ListId) (v : List SectionDescriptor) :
    (heapSet h n v).length = h.length := by
  induction h generalizing n with
  | nil => rfl
  | cons c t ih =>
      cases n with
      | zero => rfl
      | succ m => simp [heapSet, ih]

theorem heapGet_heapSet_self {h : Heap} {n : ListId} (hn : n < h.length)
    (v : List SectionDescriptor) : heapGet (heapSet h n v) n = v := by
  induction h generalizing n with
  | nil => simp at hn
  | cons c t ih =>
      cases n with
      | zero => rfl
      | succ m => exact ih (by simpa using hn)

theorem heapGet_heapSet_ne {h : Heap} {n m : ListId} (hne : m ≠ n)
    (v : List SectionDescriptor) : heapGet (heapSet h n v) m = heapGet h m := by
  induction h generalizing n m with
  | nil => rfl
  | cons c t ih =>
      cases n with
      | zero =>
          cases m with
          | zero => exact absurd rfl hne
          | succ k => rfl
      | succ n2 =>
          cases m with
          | zero => rfl
          | succ k => exact ih (fun hk => hne (by rw [hk]))

theorem heapGet_append_lt {h : Heap} {i : ListId} (hi : i < h.length) (h2 : Heap) :
    heapGet (h ++ h2) i = heapGet h i := by
  induction h generalizing i with
  | nil => simp at hi
  | cons c t ih =>
      cases i with
      | zero => rfl
      | succ k => exact ih (by simpa using hi)

theorem heapGet_append_self (h : Heap) (v : List SectionDescriptor) :
    heapGet (h ++ [v]) h.length = v := by
  induction h with
  | nil => rfl
  | cons c t ih => simpa using ih

/-! ## Map lemmas -/

theorem keyEq_symm (a b : Nat × SectionDescriptor) : keyEq a b = keyEq b a := by
  have h : ∀ x y : Nat × SectionDescriptor, keyEq x y = true → keyEq y x = true := by
    intro x y hxy
    simp only [keyEq, sKeyEq, Bool.and_eq_true, decide_eq_true_eq] at hxy ⊢
    omega
  cases hab : keyEq a b with
  | true => exact (h a b hab).symm
  | false =>
      cases hba : keyEq b a with
      | true => rw [h b a hba] at hab; cases hab
      | false => rfl

theorem lookup_pmSet_self (m : PMap) (p : Nat) (v : ListId) :
    List.lookup p (pmSet m p v) = some v := by
  induction m with
  | nil => simp [pmSet, List.lookup]
  | cons e rest ih =>
      obtain ⟨k, w⟩ := e
      by_cases h : k = p
      · simp [pmSet, h, List.lookup]
      · simp only [pmSet, if_neg h]
        have hb : (p == k) = false := beq_eq_false_iff_ne.mpr (fun hh => h hh.symm)
        simp [List.lookup, hb, ih]

theorem lookup_pmSet_ne (m : PMap) {p q : Nat} (v : ListId) (hne : q ≠ p) :
    List.lookup q (pmSet m p v) = List.lookup q m := by
  induction m with
  | nil =>
      have hb : (q == p) = false := beq_eq_false_iff_ne.mpr hne
      simp [pmSet, List.lookup, hb]
  | cons e rest ih =>
      obtain ⟨k, w⟩ := e
      by_cases h : k = p
      · subst h
        have hb : (q == k) = false := beq_eq_false_iff_ne.mpr hne
        simp [pmSet, List.lookup, hb]
      · simp only [pmSet, if_neg h]
        simp [List.lookup, ih]

theorem pmDelete_none_iff (m : PMap) (p : Nat) :
    pmDelete m p = none ↔ List.lookup p m = none := by
  induction m with
  | nil => simp [pmDelete, List.lookup]
  | cons e rest ih =>
      obtain ⟨k, w⟩ := e
      by_cases h : k = p
      · subst h
        simp [pmDelete, List.lookup]
      · have hb : (p == k) = false := beq_eq_false_iff_ne.mpr (fun hh => h hh.symm)
        simp only [pmDelete, if_neg h, List.lookup, hb]
        cases hv : pmDelete rest p with
        | none => simp [ih.mp hv]
        | some m2 =>
            simp only []
            constructor
            · intro hh; cases hh
            · intro hh
              rw [ih.mpr hh] at hv
              cases hv

/-- Structural characterization of a successful `pmDelete`. -/
theorem pmDelete_some {m : PMap} {p : Nat} {m2 : PMap} (h : pmDelete m p = some m2) :
    ∃ pre e post, m = pre ++ e :: post ∧ e.1 = p ∧ (∀ e2 ∈ pre, e2.1 ≠ p)
      ∧ m2 = pre ++ post := by
  induction m generalizing m2 with
  | nil => cases h
  | cons e rest ih =>
      by_cases hp : e.1 = p
      · have h2 : some rest = some m2 := by
          rw [← h]
          simp only [pmDelete]
          rw [if_pos hp]
        cases h2
        exact ⟨[], e, rest, by simp, hp, by simp, by simp⟩
      · have h2 : (match pmDelete rest p with
            | some rest2 => some (e :: rest2)
            | none => none) = some m2 := by
          rw [← h]
          simp only [pmDelete]
          rw [if_neg hp]
        cases hv : pmDelete rest p with
        | none => rw [hv] at h2; cases h2
        | some r2 =>
            rw [hv] at h2
            cases h2
            obtain ⟨pre, e2, post, hsplit, he2, hpre, hr2⟩ := ih hv
            refine ⟨e :: pre, e2, post, by simp [hsplit], he2, ?_, by simp [hr2]⟩
            intro e3 he3
            rcases List.mem_cons.mp he3 with rfl | h3
            · exact hp
            · exact hpre e3 h3

theorem lookup_append_left {α β : Type} [BEq α] {m1 : List (α × β)} {k : α}
    (m2 : List (α × β)) (h : List.lookup k m1 = none) :
    List.lookup k (m1 ++ m2) = List.lookup k m2 := by
  induction m1 with
  | nil => simp
  | cons e rest ih =>
      obtain ⟨k2, w⟩ := e
      rw [List.cons_append]
      rw [show List.lookup k ((k2, w) :: rest) = match k == k2 with
        | true => some w
        | false => List.lookup k rest from rfl] at h
      rw [show List.lookup k ((k2, w) :: (rest ++ m2)) = match k == k2 with
        | true => some w
        | false => List.lookup k (rest ++ m2) from rfl]
      cases hb : k == k2 with
      | true => rw [hb] at h; cases h
      | false =>
          rw [hb] at h
          simp only []
          exact ih h

/-- Stored keys are pairwise non-matching — automatic for a real
`immutables.Map`, which keeps at most one binding per key slot. -/
def SMWf (m : SMap) : Prop :=
  m.Pairwise (fun e1 e2 => keyEq e1.1 e2.1 = false)

theorem keyEq_trans {a b c : Nat × SectionDescriptor}
    (h1 : keyEq a b = true) (h2 : keyEq c b = true) : keyEq a c = true := by
  simp only [keyEq, sKeyEq, Bool.and_eq_true, decide_eq_true_eq] at h1 h2 ⊢
  omega

theorem smLookup_none_iff (m : SMap) (k : Nat × SectionDescriptor) :
    smLookup m k = none ↔ ∀ e ∈ m, keyEq e.1 k = false := by
  simp only [smLookup]
  cases hv : m.find? (fun e => keyEq e.1 k) with
  | none =>
      simp only []
      rw [List.find?_eq_none] at hv
      constructor
      · intro _ e he
        simpa using hv e he
      · intro _; trivial
  | some e =>
      simp only []
      have hp := List.find?_some hv
      constructor
      · intro hh; cases hh
      · intro hall
        rw [hall e (List.mem_of_find?_eq_some hv)] at hp
        cases hp


theorem smLookup_isSome_iff (m : SMap) (k : Nat × SectionDescriptor) :
    (smLookup m k).isSome = true ↔ ∃ e ∈ m, keyEq e.1 k = true := by
  cases hv : smLookup m k with
  | none =>
      rw [smLookup_none_iff] at hv
      simp only [Option.isSome_none]
      constructor
      · intro hh; cases hh
      · rintro ⟨e, he, hk⟩
        rw [hv e he] at hk
        cases hk
  | some v =>
      simp only [Option.isSome_some]
      refine ⟨fun _ => ?_, fun _ => trivial⟩
      simp only [smLookup] at hv
      cases hf : m.find? (fun e => keyEq e.1 k) with
      | none => rw [hf] at hv; cases hv
      | some e =>
          have hp := List.find?_some hf
          exact ⟨e, List.mem_of_find?_eq_some hf, by simpa using hp⟩

theorem smLookup_eq_some {m : SMap} (hwf : SMWf m) {k : Nat × SectionDescriptor} {v : Module}
    (hmem : (k, v) ∈ m) (hrefl : keyEq k k = true) : smLookup m k = some v := by
  induction m with
  | nil => cases hmem
  | cons e rest ih =>
      rcases List.mem_cons.mp hmem with heq | hmem2
      · simp only [smLookup]
        rw [List.find?_cons_of_pos _ (by rw [← heq]; exact hrefl)]
        rw [← heq]
      · have hpw := List.pairwise_cons.mp hwf
        have hne : keyEq e.1 k = false := hpw.1 (k, v) hmem2
        have := ih hpw.2 hmem2
        simp only [smLookup] at this ⊢
        rw [List.find?_cons_of_neg _ (by simp [hne])]
        exact this

theorem smSet_eq_append {m : SMap} {k : Nat × SectionDescriptor} (v : Module)
    (hno : ∀ e ∈ m, keyEq e.1 k = false) : smSet m k v = m ++ [(k, v)] := by
  induction m with
  | nil => rfl
  | cons e rest ih =>
      have he := hno e (by simp)
      simp only [smSet]
      rw [if_neg (by simp [he])]
      rw [ih (fun e2 h2 => hno e2 (by simp [h2]))]
      simp

theorem smLookup_append {m1 : SMap} {k : Nat × SectionDescriptor} (m2 : SMap)
    (h : ∀ e ∈ m1, keyEq e.1 k = false) :
    smLookup (m1 ++ m2) k = smLookup m2 k := by
  induction m1 with
  | nil => simp
  | cons e rest ih =>
      have he := h e (by simp)
      simp only [smLookup, List.cons_append]
      rw [List.find?_cons_of_neg _ (by simp [he])]
      exact ih (fun e2 h2 => h e2 (by simp [h2]))

theorem smLookup_singleton {k q : Nat × SectionDescriptor} {v : Module} :
    smLookup [(k, v)] q = if keyEq k q = true then some v else none := by
  by_cases hk : keyEq k q = true
  · simp only [smLookup]
    rw [List.find?_cons_of_pos _ (by exact hk)]
    simp [hk]
  · simp only [smLookup]
    rw [List.find?_cons_of_neg _ (by simpa using hk)]
    simp [hk]

theorem smDelete_none_iff (m : SMap) (k : Nat × SectionDescriptor) :
    smDelete m k = none ↔ ∀ e ∈ m, keyEq e.1 k = false := by
  induction m with
  | nil => simp [smDelete]
  | cons e rest ih =>
      by_cases hk : keyEq e.1 k = true
      · simp only [smDelete]
        rw [if_pos hk]
        constructor
        · intro hh; cases hh
        · intro hall
          rw [hall e (by simp)] at hk
          cases hk
      · simp only [smDelete]
        rw [if_neg hk]
        cases hv : smDelete rest k with
        | none =>
            simp only []
            constructor
            · intro _ e2 he2
              rcases List.mem_cons.mp he2 with rfl | h2
              · simpa using hk
              · exact (ih.mp hv) e2 h2
            · intro _; trivial
        | some m2 =>
            simp only []
            constructor
            · intro hh; cases hh
            · intro hall
              rw [ih.mpr (fun e2 h2 => hall e2 (by simp [h2]))] at hv
              cases hv

/-- Structural characterization of a successful `smDelete`. -/
theorem smDelete_some {m : SMap} {k : Nat × SectionDescriptor} {m2 : SMap}
    (h : smDelete m k = some m2) :
    ∃ pre e post, m = pre ++ e :: post ∧ keyEq e.1 k = true
      ∧ (∀ e2 ∈ pre, keyEq e2.1 k = false) ∧ m2 = pre ++ post := by
  induction m generalizing m2 with
  | nil => cases h
  | cons e rest ih =>
      by_cases hk : keyEq e.1 k = true
      · have h2 : some rest = some m2 := by
          rw [← h]
          simp only [smDelete]
          rw [if_pos hk]
        cases h2
        exact ⟨[], e, rest, by simp, hk, by simp, by simp⟩
      · have h2 : (match smDelete rest k with
            | some rest2 => some (e :: rest2)
            | none => none) = some m2 := by
          rw [← h]
          simp only [smDelete]
          rw [if_neg hk]
        cases hv : smDelete rest k with
        | none => rw [hv] at h2; cases h2
        | some r2 =>
            rw [hv] at h2
            cases h2
            obtain ⟨pre, e2, post, hsplit, he2, hpre, hr2⟩ := ih hv
            refine ⟨e :: pre, e2, post, by simp [hsplit], he2, ?_, by simp [hr2]⟩
            intro e3 he3
            rcases List.mem_cons.mp he3 with rfl | h3
            · simpa using hk
            · exact hpre e3 h3

theorem SMWf_append_single {m : SMap} (hwf : SMWf m) {k : Nat × SectionDescriptor} {v : Module}
    (hno : ∀ e ∈ m, keyEq e.1 k = false) : SMWf (m ++ [(k, v)]) := by
  rw [SMWf, List.pairwise_append]
  refine ⟨hwf, by simp, ?_⟩
  intro a ha b hb
  rw [List.mem_singleton.mp hb]
  exact hno a ha

theorem SMWf_sublist {m m2 : SMap} (h : m2.Sublist m) (hwf : SMWf m) : SMWf m2 :=
  List.Pairwise.sublist h hwf

/-- Under `SMWf`, `smDelete` removes exactly the entries whose key matches. -/
theorem mem_smDelete {m : SMap} {k : Nat × SectionDescriptor} {m2 : SMap}
    (hwf : SMWf m) (h : smDelete m k = some m2) :
    ∀ e2, e2 ∈ m2 ↔ e2 ∈ m ∧ keyEq e2.1 k = false := by
  obtain ⟨pre, e, post, hsplit, he, hpre, hm2⟩ := smDelete_some h
  subst hsplit
  subst hm2
  have hwf2 := List.pairwise_append.mp (SMWf_sublist (List.Sublist.refl _) hwf)
  have hpost : ∀ e2 ∈ post, keyEq e2.1 k = false := by
    intro e2 he2
    by_contra hc
    have hc2 : keyEq e2.1 k = true := by
      cases hv : keyEq e2.1 k with
      | true => rfl
      | false => exact absurd hv hc
    have hee2 : keyEq e.1 e2.1 = true := keyEq_trans he hc2
    have := (List.pairwise_cons.mp hwf2.2.1).1 e2 he2
    rw [this] at hee2
    cases hee2
  intro e2
  constructor
  · intro hmem
    rcases List.mem_append.mp hmem with h1 | h1
    · exact ⟨List.mem_append_left _ h1, hpre e2 h1⟩
    · exact ⟨List.mem_append_right _ (List.mem_cons_of_mem e h1), hpost e2 h1⟩
  · rintro ⟨hmem, hne⟩
    rcases List.mem_append.mp hmem with h1 | h1
    · exact List.mem_append_left _ h1
    · rcases List.mem_cons.mp h1 with rfl | h2
      · rw [he] at hne; cases hne
      · exact List.mem_append_right _ h2

/-- Keys not matching the head entry pass `smDeleteAll` through it. -/
theorem smDeleteAll_cons_skip {ks : List (Nat × SectionDescriptor)}
    {e : (Nat × SectionDescriptor) × Module} {m : SMap}
    (hno : ∀ k2 ∈ ks, keyEq e.1 k2 = false) :
    smDeleteAll ks (e :: m) =
      ((e :: (smDeleteAll ks m).1), (smDeleteAll ks m).2) := by
  induction ks generalizing m with
  | nil => simp [smDeleteAll]
  | cons k2 ks2 ih =>
      have hk2 := hno k2 (by simp)
      simp only [smDeleteAll, smDelete]
      rw [if_neg (by simp [hk2])]
      cases hv : smDelete m k2 with
      | none => simp
      | some m2 =>
          simp only []
          exact ih (fun k3 h3 => hno k3 (by simp [h3]))

/-- The `remove_pid` deletion loop: deleting (in order) every key of an
entry whose pid matches, starting from the same map, filters out exactly the
matching entries and raises nothing. -/
theorem smDeleteAll_filter (pid : Nat) :
    ∀ m : SMap, (∀ e ∈ m, keyEq e.1 e.1 = true) →
      smDeleteAll ((m.filter (fun e => decide (e.1.1 = pid))).map (·.1)) m
        = (m.filter (fun e => !decide (e.1.1 = pid)), none) := by
  intro m
  induction m with
  | nil => simp [smDeleteAll]
  | cons e rest ih =>
      intro hpos
      by_cases hp : e.1.1 = pid
      · have hstep :
            smDeleteAll (((e :: rest).filter (fun e2 => decide (e2.1.1 = pid))).map (·.1))
              (e :: rest)
            = smDeleteAll ((rest.filter (fun e2 => decide (e2.1.1 = pid))).map (·.1)) rest := by
          rw [List.filter_cons_of_pos (by simp [hp])]
          simp only [List.map_cons, smDeleteAll, smDelete]
          rw [if_pos (hpos e (by simp))]
        rw [hstep, ih (fun e2 h2 => hpos e2 (by simp [h2]))]
        rw [List.filter_cons_of_neg (by simp [hp])]
      · rw [List.filter_cons_of_neg (by simp [hp])]
        have hks : ∀ k2 ∈ (rest.filter (fun e2 => decide (e2.1.1 = pid))).map (·.1),
            keyEq e.1 k2 = false := by
          intro k2 hk2
          obtain ⟨e2, he2, hk2e⟩ := List.mem_map.mp hk2
          have : e2.1.1 = pid := by
            have := List.mem_filter.mp he2
            simpa using this.2
          rw [← hk2e]
          simp only [keyEq]
          have hne : e.1.1 ≠ e2.1.1 := by rw [this]; exact hp
          simp [hne]
        rw [smDeleteAll_cons_skip hks]
        rw [ih (fun e2 h2 => hpos e2 (by simp [h2]))]
        rw [List.filter_cons_of_pos (by simp [hp])]

/-! ## Concrete fixtures used by witnesses and counterexamples -/

deriving instance DecidableEq for Except

def exSecA : SectionDescriptor := ⟨"a", 0x1000, 0x400000, 0x100, true, false, true⟩

def exSecB : SectionDescriptor := ⟨"b", 0x2000, 0x401000, 0x80, true, false, true⟩

/-- A zero-size section (a malformed load event). -/
def exSecZ : SectionDescriptor := ⟨"z", 0x3000, 0, 0, true, false, true⟩

/-- Structurally different from `exSecA` (other name, other native base) but
with the same runtime range, hence overlapping it. -/
def exSecA2 : SectionDescriptor := ⟨"other", 0x1000, 0x500000, 0x100, true, false, true⟩

def exMod : Module := ⟨"m", "/m", 7, [exSecA, exSecB]⟩

def exModZ : Module := ⟨"mz", "/mz", 1, [exSecA, exSecZ]⟩

def exModA2 : Module := ⟨"m2", "/m2", 7, [exSecA2]⟩

/-- `add []` of `exMod` into a fresh index: heap, state and error. -/
def exState : Heap × ModuleMap × Option PyErr := ModuleMap.add [] ModuleMap.init exMod

/-! ## Claim C7: kernel-space redirection -/

/-- C7: for every pid and every `pc ≥ kernel_start`, `get(pid, pc)` behaves
exactly as a lookup under pid 0: same module or same error, regardless of
the pid supplied. -/
theorem c7_kernel_redirect (h : Heap) (st : ModuleMap) (pid pc : Nat)
    (hks : st.kernel_start ≤ pc) :
    ModuleMap.get h st pid pc = ModuleMap.get h st 0 pc := by
  simp only [ModuleMap.get, ModuleMap._translate_pid, if_pos hks]

/-- Witness for `c7_kernel_redirect`: with `kernel_start = 0x1000`, a lookup
of `0x1050` under pid 999 equals the lookup under pid 0. -/
theorem c7_kernel_redirect_witness :
    (ModuleMap.set_kernel_start exState.2.1 0x1000).kernel_start ≤ 0x1050
    ∧ ModuleMap.get exState.1 (ModuleMap.set_kernel_start exState.2.1 0x1000) 999 0x1050
      = ModuleMap.get exState.1 (ModuleMap.set_kernel_start exState.2.1 0x1000) 0 0x1050 :=
  ⟨by decide, c7_kernel_redirect _ _ 999 0x1050 (by decide)⟩

/-! ## Claim C8: overlapping insert is skipped, non-fatally -/

/-- C8: when the `add` loop processes a section `s` that overlaps a section
already indexed for the pid (and the conflict log's map lookup finds the
overlapped section's module, as it always does in an index satisfying the
invariant), the step raises nothing, changes neither the pid's list cell nor
the module map, does not insert `s`, and continues with the module's
remaining sections: processing `s :: rest` equals processing `rest`. -/
theorem c8_overlap_skip (pid : Nat) (mod : Module) (n : ListId) (s : SectionDescriptor)
    (rest : List SectionDescriptor) (h : Heap) (sm : SMap) (idx : Nat) (M : Module)
    (hsz : s.size ≠ 0)
    (hidx : _index (heapGet h n) s = some idx)
    (hlog : smLookup sm (pid, (heapGet h n).getD idx default) = some M) :
    addLoop pid mod n (s :: rest) h sm = addLoop pid mod n rest h sm := by
  simp only [addLoop, if_neg hsz, hidx, hlog]

/-- Witness for `c8_overlap_skip`: adding `exSecA2`, which overlaps the
indexed `exSecA`, is a skipped no-op step. -/
theorem c8_overlap_skip_witness :
    addLoop 7 exModA2 0 [exSecA2] [[exSecA]] [((7, exSecA), exMod)]
      = addLoop 7 exModA2 0 [] [[exSecA]] [((7, exSecA), exMod)] :=
  c8_overlap_skip 7 exModA2 0 exSecA2 [] [[exSecA]] [((7, exSecA), exMod)] 0 exMod
    (by decide) (by decide) (by decide)

/-! ## Claim C2: snapshot isolation of clones

The only mutable state shared between a `ModuleMap` and its clone is the
heap of list cells.  Every mutating operation only writes to the cell it
freshly allocated (`.copy()`), so cells allocated before the operation keep
their contents, and a `get` on a state whose referenced ids predate the
operations reads exactly what it read before. -/

/-- The heap only grows and previously allocated cells keep their
contents. -/
def HeapPreserved (h h2 : Heap) : Prop :=
  h.length ≤ h2.length ∧ ∀ i, i < h.length → heapGet h2 i = heapGet h i

theorem HeapPreserved.rfl (h : Heap) : HeapPreserved h h :=
  ⟨le_refl _, fun _ _ => Eq.refl _⟩

theorem HeapPreserved.trans {h1 h2 h3 : Heap}
    (a : HeapPreserved h1 h2) (b : HeapPreserved h2 h3) : HeapPreserved h1 h3 :=
  ⟨le_trans a.1 b.1, fun i hi => (b.2 i (lt_of_lt_of_le hi a.1)).trans (a.2 i hi)⟩

/-- Every cell id `_pid_to_sections` references is an allocated cell. -/
def ValidIds (h : Heap) (st : ModuleMap) : Prop :=
  ∀ p i, List.lookup p st.pid_to_sections = some i → i < h.length

/-- The `add` loop writes only to cell `n`. -/
theorem addLoop_heap (pid : Nat) (mod : Module) (n : ListId) :
    ∀ secs (h : Heap) (sm : SMap),
      (addLoop pid mod n secs h sm).1.length = h.length
      ∧ ∀ i, i ≠ n → heapGet (addLoop pid mod n secs h sm).1 i = heapGet h i := by
  intro secs
  induction secs with
  | nil => intro h sm; exact ⟨Eq.refl _, fun _ _ => Eq.refl _⟩
  | cons s rest ih =>
      intro h sm
      by_cases hsz : s.size = 0
      · simp [addLoop, if_pos hsz]
      · cases hidx : _index (heapGet h n) s with
        | some idx =>
            cases hlog : smLookup sm (pid, (heapGet h n).getD idx default) with
            | none =>
                simp only [addLoop, if_neg hsz, hidx, hlog]
                refine ⟨?_, ?_⟩ <;> simp
            | some M =>
                simp only [addLoop, if_neg hsz, hidx, hlog]
                exact ih h sm
        | none =>
            simp only [addLoop, if_neg hsz, hidx]
            constructor
            · rw [(ih _ _).1, length_heapSet]
            · intro i hi
              rw [(ih _ _).2 i hi, heapGet_heapSet_ne hi]

/-- The `remove` loop writes only to cell `n`. -/
theorem removeLoop_heap (pid : Nat) (n : ListId) :
    ∀ secs (h : Heap) (sm : SMap) (pm : PMap),
      (removeLoop pid n secs h sm pm).1.length = h.length
      ∧ ∀ i, i ≠ n → heapGet (removeLoop pid n secs h sm pm).1 i = heapGet h i := by
  intro secs
  induction secs with
  | nil => intro h sm pm; exact ⟨Eq.refl _, fun _ _ => Eq.refl _⟩
  | cons s rest ih =>
      intro h sm pm
      cases hidx : _index (heapGet h n) s with
      | none =>
          simp only [removeLoop, hidx]
          exact ih h sm pm
      | some idx =>
          cases hdel : smDelete sm (pid, s) with
          | none =>
              simp only [removeLoop, hidx, hdel]
              constructor
              · rw [length_heapSet]
              · intro i hi
                rw [heapGet_heapSet_ne hi]
          | some sm2 =>
              simp only [removeLoop, hidx, hdel]
              constructor
              · rw [(ih _ _ _).1, length_heapSet]
              · intro i hi
                rw [(ih _ _ _).2 i hi, heapGet_heapSet_ne hi]

theorem add_heapPreserved (h : Heap) (st : ModuleMap) (mod : Module) :
    HeapPreserved h (ModuleMap.add h st mod).1 := by
  have hloop := addLoop_heap mod.pid mod h.length mod.sections
    (h ++ [pidSections h st mod.pid]) st.section_to_module
  have hlen : (h ++ [pidSections h st mod.pid]).length = h.length + 1 := by simp
  have hres : (ModuleMap.add h st mod).1
      = (addLoop mod.pid mod h.length mod.sections (h ++ [pidSections h st mod.pid])
          st.section_to_module).1 := by
    unfold ModuleMap.add
    rcases addLoop mod.pid mod h.length mod.sections (h ++ [pidSections h st mod.pid])
      st.section_to_module with ⟨h2, sm2, e⟩
    cases e <;> rfl
  rw [hres]
  constructor
  · rw [hloop.1, hlen]; omega
  · intro i hi
    have hne : i ≠ h.length := by omega
    rw [hloop.2 i hne, heapGet_append_lt hi]

theorem remove_heapPreserved (h : Heap) (st : ModuleMap) (mod : Module) :
    HeapPreserved h (ModuleMap.remove h st mod).1 := by
  unfold ModuleMap.remove
  cases hl : List.lookup mod.pid st.pid_to_sections with
  | none => exact HeapPreserved.rfl h
  | some i =>
      have hloop := removeLoop_heap mod.pid h.length mod.sections
        (h ++ [heapGet h i]) st.section_to_module st.pid_to_sections
      have hlen : (h ++ [heapGet h i]).length = h.length + 1 := by simp
      show HeapPreserved h (removeLoop mod.pid h.length mod.sections (h ++ [heapGet h i])
        st.section_to_module st.pid_to_sections).1
      constructor
      · rw [hloop.1, hlen]; omega
      · intro j hj
        have hne : j ≠ h.length := by omega
        rw [hloop.2 j hne, heapGet_append_lt hj]

theorem runOp_heapPreserved (h : Heap) (st : ModuleMap) (op : MOp) :
    HeapPreserved h (runOp h st op).1 := by
  cases op with
  | opAdd mod => exact add_heapPreserved h st mod
  | opRemove mod => exact remove_heapPreserved h st mod
  | opRemovePid pid =>
      show HeapPreserved h (ModuleMap.remove_pid h st pid).1
      unfold ModuleMap.remove_pid
      cases pmDelete st.pid_to_sections pid with
      | none => exact HeapPreserved.rfl h
      | some pm2 => exact HeapPreserved.rfl h

theorem runOps_heapPreserved (ops : List MOp) :
    ∀ (h : Heap) (st : ModuleMap), HeapPreserved h (runOps h st ops).1 := by
  induction ops with
  | nil => intro h st; exact HeapPreserved.rfl h
  | cons op ops ih =>
      intro h st
      have h1 := runOp_heapPreserved h st op
      rcases hv : runOp h st op with ⟨h2, st2, e⟩
      rw [hv] at h1
      simp only [runOps, hv]
      exact h1.trans (ih h2 st2)

/-- `get` only reads heap cells the state references, so it is unchanged
under heap growth that preserves those cells. -/
theorem get_congr {h h2 : Heap} {st : ModuleMap} (hv : ValidIds h st)
    (hp : HeapPreserved h h2) (pid pc : Nat) :
    ModuleMap.get h2 st pid pc = ModuleMap.get h st pid pc := by
  unfold ModuleMap.get
  cases hl : List.lookup (st._translate_pid pid pc) st.pid_to_sections with
  | none => rfl
  | some i =>
      have hg : heapGet h2 i = heapGet h i := hp.2 i (hv _ _ hl)
      show (match _index (heapGet h2 i) (sentinel pc) with
          | none => Except.error PyErr.addressNotMapped
          | some idx =>
            match smLookup st.section_to_module
                (st._translate_pid pid pc, (heapGet h2 i).getD idx default) with
            | none => Except.error PyErr.keyError
            | some m => Except.ok m)
        = (match _index (heapGet h i) (sentinel pc) with
          | none => Except.error PyErr.addressNotMapped
          | some idx =>
            match smLookup st.section_to_module
                (st._translate_pid pid pc, (heapGet h i).getD idx default) with
            | none => Except.error PyErr.keyError
            | some m => Except.ok m)
      rw [hg]

/-- C2: after `idx2 = idx.clone()`, any sequence of `add` / `remove` /
`remove_pid` calls on the clone leaves every `get(pid, pc)` result of the
original — value or error — exactly as it was (and since `clone` returns a
field-for-field copy, the mirrored statement for mutating the original and
observing the clone is the same statement). -/
theorem c2_clone_isolation (h : Heap) (st : ModuleMap) (ops : List MOp)
    (hv : ValidIds h st) (pid pc : Nat) :
    ModuleMap.get (runOps h (ModuleMap.clone st) ops).1 st pid pc
      = ModuleMap.get h st pid pc :=
  get_congr hv (runOps_heapPreserved ops h (ModuleMap.clone st)) pid pc

/-- Witness for `c2_clone_isolation`: removing `exMod` from the clone leaves
the original's successful lookup intact (while the clone itself, run on the
same heap, no longer resolves the address). -/
theorem c2_clone_isolation_witness :
    ModuleMap.get (runOps exState.1 (ModuleMap.clone exState.2.1) [MOp.opRemove exMod]).1
        exState.2.1 7 0x1050
      = ModuleMap.get exState.1 exState.2.1 7 0x1050 :=
  c2_clone_isolation exState.1 exState.2.1 [MOp.opRemove exMod]
    (by
      intro p i hl
      rw [show exState.2.1.pid_to_sections = [(7, 0)] from rfl] at hl
      cases hb : p == 7 with
      | true =>
          rw [List.lookup, hb] at hl
          cases hl
          decide
      | false =>
          rw [List.lookup, hb] at hl
          cases hl)
    7 0x1050

/-! ## The index invariant -/

theorem getD_mem {a : List SectionDescriptor} {i : Nat} (h : i < a.length) :
    a.getD i default ∈ a := by
  rw [List.getD_eq_getElem a default h]
  exact List.getElem_mem h

theorem keyEq_pair {p q : Nat} {U s : SectionDescriptor} :
    keyEq (p, U) (q, s) = true ↔
      p = q ∧ U.runtime_load_base = s.runtime_load_base ∧ U.size = s.size ∧ 0 < U.size := by
  simp [keyEq, sKeyEq, and_assoc]

theorem keyEq_refl {p : Nat} {S : SectionDescriptor} (h : 0 < S.size) :
    keyEq (p, S) (p, S) = true := by
  simp [keyEq, sKeyEq, h]

theorem sEq_of_keyEq {U s : SectionDescriptor}
    (hb : U.runtime_load_base = s.runtime_load_base) (hs : U.size = s.size)
    (hp : 0 < U.size) : sEq U s = true := by
  rw [sEq_iff]
  omega

theorem smLookup_append_some {m1 : SMap} {k : Nat × SectionDescriptor} {v : Module}
    (m2 : SMap) (h : smLookup m1 k = some v) : smLookup (m1 ++ m2) k = some v := by
  induction m1 with
  | nil => simp [smLookup] at h
  | cons e rest ih =>
      simp only [smLookup, List.cons_append] at h ⊢
      cases hk : keyEq e.1 k with
      | true =>
          rw [List.find?_cons_of_pos _ (by exact hk)] at h ⊢
          exact h
      | false =>
          rw [List.find?_cons_of_neg _ (by simp [hk])] at h ⊢
          exact ih h

/-- Keys of `_pid_to_sections` are pairwise distinct — automatic for a real
`immutables.Map`. -/
def PMWf (m : PMap) : Prop :=
  m.Pairwise (fun a b => a.1 ≠ b.1)

/-- The §3 invariant of the index, over the heap model: referenced cells are
allocated; per pid the stored list is address-sorted, pairwise
non-overlapping and of positive sizes; the two mappings mirror each other
entry-for-entry; stored keys of either map occupy pairwise distinct key
slots. -/
structure Inv (h : Heap) (st : ModuleMap) : Prop where
  valid : ValidIds h st
  sorted : ∀ p i, List.lookup p st.pid_to_sections = some i → SSorted (heapGet h i)
  pos : ∀ p i, List.lookup p st.pid_to_sections = some i → ∀ S ∈ heapGet h i, 0 < S.size
  fwd : ∀ p i, List.lookup p st.pid_to_sections = some i →
    ∀ S ∈ heapGet h i, ∃ M, ((p, S), M) ∈ st.section_to_module
  bwd : ∀ p S M, ((p, S), M) ∈ st.section_to_module →
    ∃ i, List.lookup p st.pid_to_sections = some i ∧ S ∈ heapGet h i
  wf : SMWf st.section_to_module
  pmwf : PMWf st.pid_to_sections

/-- The empty index satisfies the invariant. -/
theorem Inv_init : Inv [] ModuleMap.init := by
  refine ⟨?_, ?_, ?_, ?_, ?_, ?_, ?_⟩
  · intro p i hl; simp [ModuleMap.init, List.lookup] at hl
  · intro p i hl; simp [ModuleMap.init, List.lookup] at hl
  · intro p i hl; simp [ModuleMap.init, List.lookup] at hl
  · intro p i hl; simp [ModuleMap.init, List.lookup] at hl
  · intro p S M hm; simp [ModuleMap.init] at hm
  · simp [SMWf, ModuleMap.init]
  · simp [PMWf, ModuleMap.init]

/-- The keys of `pmSet m p v` are `p` and keys of `m`. -/
theorem pmSet_keys {m : PMap} {p : Nat} {v : ListId} :
    ∀ e ∈ pmSet m p v, e.1 = p ∨ ∃ w, (e.1, w) ∈ m := by
  induction m with
  | nil =>
      intro e he
      rcases List.mem_singleton.mp he with rfl
      exact Or.inl rfl
  | cons e2 rest ih =>
      intro e he
      by_cases hk : e2.1 = p
      · simp only [pmSet, if_pos hk] at he
        rcases List.mem_cons.mp he with rfl | h2
        · exact Or.inl rfl
        · exact Or.inr ⟨e.2, List.mem_cons_of_mem _ (by rw [show (e.1, e.2) = e from rfl]; exact h2)⟩
      · simp only [pmSet, if_neg hk] at he
        rcases List.mem_cons.mp he with rfl | h2
        · exact Or.inr ⟨e.2, by rw [show (e.1, e.2) = e from rfl]; exact List.mem_cons_self _ _⟩
        · rcases ih e h2 with h3 | ⟨w, h3⟩
          · exact Or.inl h3
          · exact Or.inr ⟨w, List.mem_cons_of_mem _ h3⟩

theorem pmSet_PMWf {m : PMap} (hwf : PMWf m) (p : Nat) (v : ListId) :
    PMWf (pmSet m p v) := by
  induction m with
  | nil => simp [pmSet, PMWf]
  | cons e rest ih =>
      have hpw := List.pairwise_cons.mp hwf
      by_cases hk : e.1 = p
      · simp only [pmSet, if_pos hk]
        rw [PMWf, List.pairwise_cons]
        refine ⟨?_, hpw.2⟩
        intro a ha
        rw [← hk]
        exact hpw.1 a ha
      · simp only [pmSet, if_neg hk]
        rw [PMWf, List.pairwise_cons]
        refine ⟨?_, ih hpw.2⟩
        intro a ha
        rcases pmSet_keys a ha with h1 | ⟨w, h1⟩
        · rw [h1]; exact hk
        · exact hpw.1 (a.1, w) h1

theorem lookup_eq_none_of_keys {α β : Type} [BEq α] [LawfulBEq α] {m : List (α × β)} {k : α}
    (h : ∀ e ∈ m, e.1 ≠ k) : List.lookup k m = none := by
  induction m with
  | nil => rfl
  | cons e rest ih =>
      obtain ⟨k2, w⟩ := e
      have hne : k ≠ k2 := fun hh => (h (k2, w) (by simp)) hh.symm
      have hb : (k == k2) = false := beq_eq_false_iff_ne.mpr hne
      simp only [List.lookup, hb]
      exact ih (fun e2 h2 => h e2 (by simp [h2]))

theorem lookup_append_some {α β : Type} [BEq α] {m1 : List (α × β)} {k : α} {v : β}
    (m2 : List (α × β)) (h : List.lookup k m1 = some v) :
    List.lookup k (m1 ++ m2) = some v := by
  induction m1 with
  | nil => cases h
  | cons e rest ih =>
      obtain ⟨k2, w⟩ := e
      rw [show List.lookup k ((k2, w) :: rest) = match k == k2 with
        | true => some w
        | false => List.lookup k rest from rfl] at h
      rw [List.cons_append, show List.lookup k ((k2, w) :: (rest ++ m2)) = match k == k2 with
        | true => some w
        | false => List.lookup k (rest ++ m2) from rfl]
      cases hb : k == k2 with
      | true => rw [hb] at h; exact h
      | false =>
          rw [hb] at h
          simp only []
          exact ih h

/-- Effect of a successful `pmDelete` on lookups, given distinct keys. -/
theorem pmDelete_lookup {m : PMap} {p : Nat} {m2 : PMap} (hwf : PMWf m)
    (hdel : pmDelete m p = some m2) :
    List.lookup p m2 = none ∧ (∀ q, q ≠ p → List.lookup q m2 = List.lookup q m)
    ∧ PMWf m2 := by
  obtain ⟨pre, e, post, hsplit, hep, hpre, hm2⟩ := pmDelete_some hdel
  subst hsplit
  subst hm2
  have hpw := List.pairwise_append.mp hwf
  have hpost : ∀ e2 ∈ post, e2.1 ≠ p := by
    intro e2 he2
    have := (List.pairwise_cons.mp hpw.2.1).1 e2 he2
    rw [hep] at this
    exact fun hh => this hh.symm
  refine ⟨?_, ?_, ?_⟩
  · rw [lookup_append_left _ (lookup_eq_none_of_keys (fun e2 h2 => (hpre e2 h2)))]
    exact lookup_eq_none_of_keys hpost
  · intro q hq
    cases hv : List.lookup q pre with
    | some w =>
        rw [lookup_append_some _ hv, lookup_append_some _ hv]
    | none =>
        rw [lookup_append_left _ hv, lookup_append_left _ hv]
        obtain ⟨k2, w2⟩ := e
        have hne : q ≠ k2 := by
          simp only [] at hep
          rw [hep]
          exact hq
        have hb : (q == k2) = false := beq_eq_false_iff_ne.mpr hne
        rw [show List.lookup q ((k2, w2) :: post) = match q == k2 with
          | true => some w2
          | false => List.lookup q post from rfl, hb]
  · exact List.Pairwise.sublist
      ((List.Sublist.refl pre).append (List.sublist_cons_self e post)) hwf

/-- The main induction on the `add` loop.  Starting from a cell `n` whose
list is sorted, positive-sized and mirrored by the `pid`-keyed entries of
`sm`, the loop preserves all of that, touches no other pid's entries, only
grows the list (by sections of the module), raises exactly on zero-size
sections, and records `(pid, S) ↦ mod` for every section `S` it inserts. -/
theorem addLoop_main (pid : Nat) (mod : Module) (n : ListId) :
    ∀ (secs : List SectionDescriptor) (h : Heap) (sm : SMap) (h2 : Heap) (sm2 : SMap)
      (e : Option PyErr),
      addLoop pid mod n secs h sm = (h2, sm2, e) →
      n < h.length →
      SSorted (heapGet h n) →
      (∀ S ∈ heapGet h n, 0 < S.size) →
      (∀ S ∈ heapGet h n, ∃ M, ((pid, S), M) ∈ sm) →
      (∀ S M, ((pid, S), M) ∈ sm → S ∈ heapGet h n) →
      SMWf sm →
      SSorted (heapGet h2 n)
      ∧ (∀ S ∈ heapGet h2 n, 0 < S.size)
      ∧ (∀ S ∈ heapGet h2 n, ∃ M, ((pid, S), M) ∈ sm2)
      ∧ (∀ S M, ((pid, S), M) ∈ sm2 → S ∈ heapGet h2 n)
      ∧ SMWf sm2
      ∧ (∀ q S M, q ≠ pid → (((q, S), M) ∈ sm2 ↔ ((q, S), M) ∈ sm))
      ∧ (∀ S, S ∈ heapGet h n → S ∈ heapGet h2 n)
      ∧ (∀ S ∈ heapGet h2 n, S ∈ heapGet h n ∨ S ∈ secs)
      ∧ ((∀ s ∈ secs, s.size ≠ 0) → e = none)
      ∧ ((∃ s ∈ secs, s.size = 0) → e = some PyErr.invalidSection)
      ∧ (∀ S, 0 < S.size →
          ((S ∈ heapGet h n ∧ smLookup sm (pid, S) = some mod)
            ∨ (S ∈ secs ∧ (∀ T ∈ heapGet h n, sEq T S = false)
                ∧ (∀ s2 ∈ secs, s2 ≠ S → sEq s2 S = false))) →
          e = none →
          S ∈ heapGet h2 n ∧ smLookup sm2 (pid, S) = some mod) := by
  intro secs
  induction secs with
  | nil =>
      intro h sm h2 sm2 e heq hn hA hB hC hD hE
      simp only [addLoop, Prod.mk.injEq] at heq
      obtain ⟨rfl, rfl, rfl⟩ := heq
      refine ⟨hA, hB, hC, hD, hE, fun q S M _ => Iff.rfl, fun S hS => hS,
        fun S hS => Or.inl hS, fun _ => rfl, ?_, ?_⟩
      · rintro ⟨s, hs, _⟩; cases hs
      · intro S _ hdisj _
        rcases hdisj with ⟨hmem, hlk⟩ | ⟨hmem, _⟩
        · exact ⟨hmem, hlk⟩
        · cases hmem
  | cons s rest ih =>
      intro h sm h2 sm2 e heq hn hA hB hC hD hE
      by_cases hsz : s.size = 0
      · simp only [addLoop, if_pos hsz, Prod.mk.injEq] at heq
        obtain ⟨rfl, rfl, rfl⟩ := heq
        refine ⟨hA, hB, hC, hD, hE, fun q S M _ => Iff.rfl, fun S hS => hS,
          fun S hS => Or.inl hS, ?_, fun _ => rfl, ?_⟩
        · intro hall
          exact absurd hsz (hall s (by simp))
        · intro S _ _ he
          cases he
      · cases hidx : _index (heapGet h n) s with
        | some idx =>
            obtain ⟨hidxlt, hseq, _⟩ := index_sound hidx
            have hTmem : (heapGet h n).getD idx default ∈ heapGet h n := getD_mem hidxlt
            obtain ⟨M0, hM0⟩ := hC _ hTmem
            have hTpos : 0 < ((heapGet h n).getD idx default).size := hB _ hTmem
            have hlogSome : (smLookup sm (pid, (heapGet h n).getD idx default)).isSome = true := by
              rw [smLookup_isSome_iff]
              exact ⟨_, hM0, keyEq_refl hTpos⟩
            cases hlog : smLookup sm (pid, (heapGet h n).getD idx default) with
            | none => rw [hlog] at hlogSome; cases hlogSome
            | some M1 =>
                simp only [addLoop, if_neg hsz, hidx, hlog] at heq
                obtain ⟨j1, j2, j3, j4, j5, j6, j7, j8, j9, j10, j11⟩ :=
                  ih h sm h2 sm2 e heq hn hA hB hC hD hE
                refine ⟨j1, j2, j3, j4, j5, j6, j7, ?_, ?_, ?_, ?_⟩
                · intro S hS
                  rcases j8 S hS with h1 | h1
                  · exact Or.inl h1
                  · exact Or.inr (by simp [h1])
                · intro hall
                  exact j9 (fun s2 h2m => hall s2 (by simp [h2m]))
                · rintro ⟨s2, hs2, hz⟩
                  rcases List.mem_cons.mp hs2 with rfl | hs2r
                  · exact absurd hz hsz
                  · exact j10 ⟨s2, hs2r, hz⟩
                · intro S hSpos hdisj he
                  rcases hdisj with hleft | ⟨hmem, hTno, hsib⟩
                  · exact j11 S hSpos (Or.inl hleft) he
                  · rcases List.mem_cons.mp hmem with rfl | hmemr
                    · rw [hTno _ hTmem] at hseq
                      cases hseq
                    · exact j11 S hSpos
                        (Or.inr ⟨hmemr, hTno, fun s2 h2m => hsib s2 (by simp [h2m])⟩) he
        | none =>
            have hno : ∀ T ∈ heapGet h n, sEq T s = false := (index_none_iff hA s).mp hidx
            have hspos : 0 < s.size := by omega
            have hkeyfree : ∀ e2 ∈ sm, keyEq e2.1 (pid, s) = false := by
              intro e2 he2
              obtain ⟨⟨q, U⟩, M2⟩ := e2
              cases hkv : keyEq (q, U) (pid, s) with
              | false => rfl
              | true =>
                  rw [keyEq_pair] at hkv
                  obtain ⟨rfl, hb, hs2, hUp⟩ := hkv
                  have hUmem : U ∈ heapGet h n := hD U M2 he2
                  have hover := sEq_of_keyEq hb hs2 hUp
                  rw [hno U hUmem] at hover
                  cases hover
            have hset : smSet sm (pid, s) mod = sm ++ [((pid, s), mod)] :=
              smSet_eq_append mod hkeyfree
            have hcell : heapGet (heapSet h n (insort (heapGet h n) s)) n
                = insort (heapGet h n) s := heapGet_heapSet_self hn _
            have hlen2 : n < (heapSet h n (insort (heapGet h n) s)).length := by
              rw [length_heapSet]; exact hn
            simp only [addLoop, if_neg hsz, hidx] at heq
            have hA2 : SSorted (heapGet (heapSet h n (insort (heapGet h n) s)) n) := by
              rw [hcell]; exact insort_sorted hA hno
            have hB2 : ∀ S ∈ heapGet (heapSet h n (insort (heapGet h n) s)) n,
                0 < S.size := by
              rw [hcell]
              intro S hS
              rcases insort_mem.mp hS with rfl | hS2
              · exact hspos
              · exact hB S hS2
            have hC2 : ∀ S ∈ heapGet (heapSet h n (insort (heapGet h n) s)) n,
                ∃ M, ((pid, S), M) ∈ smSet sm (pid, s) mod := by
              rw [hcell, hset]
              intro S hS
              rcases insort_mem.mp hS with rfl | hS2
              · exact ⟨mod, List.mem_append_right _ (by simp)⟩
              · obtain ⟨M2, hM2⟩ := hC S hS2
                exact ⟨M2, List.mem_append_left _ hM2⟩
            have hD2 : ∀ S M, ((pid, S), M) ∈ smSet sm (pid, s) mod →
                S ∈ heapGet (heapSet h n (insort (heapGet h n) s)) n := by
              intro S M hm
              rw [hcell]
              rw [hset] at hm
              rcases List.mem_append.mp hm with h1 | h1
              · exact insort_mem.mpr (Or.inr (hD S M h1))
              · have h2m := List.mem_singleton.mp h1
                have hSs : S = s := by
                  have := congrArg (fun z => z.1.2) h2m
                  simpa using this
                rw [hSs]
                exact insort_mem.mpr (Or.inl rfl)
            have hE2 : SMWf (smSet sm (pid, s) mod) := by
              rw [hset]; exact SMWf_append_single hE hkeyfree
            obtain ⟨j1, j2, j3, j4, j5, j6, j7, j8, j9, j10, j11⟩ :=
              ih _ _ h2 sm2 e heq hlen2 hA2 hB2 hC2 hD2 hE2
            refine ⟨j1, j2, j3, j4, j5, ?_, ?_, ?_, ?_, ?_, ?_⟩
            · intro q S M hq
              rw [j6 q S M hq, hset]
              constructor
              · intro hm
                rcases List.mem_append.mp hm with h1 | h1
                · exact h1
                · have h2m := List.mem_singleton.mp h1
                  have : q = pid := by
                    have := congrArg (fun z => z.1.1) h2m
                    simpa using this
                  exact absurd this hq
              · intro hm
                exact List.mem_append_left _ hm
            · intro S hS
              exact j7 S (by rw [hcell]; exact insort_mem.mpr (Or.inr hS))
            · intro S hS
              rcases j8 S hS with h1 | h1
              · rw [hcell] at h1
                rcases insort_mem.mp h1 with rfl | h2m
                · exact Or.inr (by simp)
                · exact Or.inl h2m
              · exact Or.inr (by simp [h1])
            · intro hall
              exact j9 (fun s2 hs2 => hall s2 (by simp [hs2]))
            · rintro ⟨s2, hs2, hz⟩
              rcases List.mem_cons.mp hs2 with rfl | hs2r
              · exact absurd hz hsz
              · exact j10 ⟨s2, hs2r, hz⟩
            · intro S hSpos hdisj he
              rcases hdisj with ⟨hmem, hlk⟩ | ⟨hmem, hTno, hsib⟩
              · refine j11 S hSpos (Or.inl ⟨?_, ?_⟩) he
                · rw [hcell]
                  exact insort_mem.mpr (Or.inr hmem)
                · rw [hset]
                  exact smLookup_append_some _ hlk
              · by_cases hSs : S = s
                · refine j11 S hSpos (Or.inl ⟨?_, ?_⟩) he
                  · rw [hcell, hSs]
                    exact insort_mem.mpr (Or.inl rfl)
                  · rw [hset, hSs]
                    rw [smLookup_append _ hkeyfree]
                    rw [smLookup_singleton]
                    rw [if_pos (keyEq_refl hspos)]
                · have hmemr : S ∈ rest := by
                    rcases List.mem_cons.mp hmem with h1 | h1
                    · exact absurd h1 hSs
                    · exact h1
                  refine j11 S hSpos (Or.inr ⟨hmemr, ?_,
                    fun s2 hs2 hne => hsib s2 (by simp [hs2]) hne⟩) he
                  rw [hcell]
                  intro T hT
                  rcases insort_mem.mp hT with rfl | hTm
                  · exact hsib T (by simp) (fun h1 => hSs h1.symm)
                  · exact hTno T hTm

/-- The initial state of an `add` call: the fresh cell holds the pid's
current list, which by the invariant is sorted, positive-sized and mirrored
by the pid's map entries. -/
theorem add_start (h : Heap) (st : ModuleMap) (pid : Nat) (hInv : Inv h st) :
    heapGet (h ++ [pidSections h st pid]) h.length = pidSections h st pid
    ∧ SSorted (pidSections h st pid)
    ∧ (∀ S ∈ pidSections h st pid, 0 < S.size)
    ∧ (∀ S ∈ pidSections h st pid, ∃ M, ((pid, S), M) ∈ st.section_to_module)
    ∧ (∀ S M, ((pid, S), M) ∈ st.section_to_module → S ∈ pidSections h st pid) := by
  refine ⟨heapGet_append_self h _, ?_⟩
  unfold pidSections
  cases hl : List.lookup pid st.pid_to_sections with
  | none =>
      refine ⟨List.Pairwise.nil, by simp, by simp, ?_⟩
      intro S M hm
      obtain ⟨i, hl2, _⟩ := hInv.bwd pid S M hm
      rw [hl] at hl2
      cases hl2
  | some i =>
      refine ⟨hInv.sorted pid i hl, hInv.pos pid i hl, hInv.fwd pid i hl, ?_⟩
      intro S M hm
      obtain ⟨i2, hl2, hmem⟩ := hInv.bwd pid S M hm
      rw [hl] at hl2
      cases hl2
      exact hmem

/-- Decomposition of `ModuleMap.add` into its loop run and commit. -/
theorem add_decomp {h : Heap} {st : ModuleMap} {mod : Module} {h2 : Heap} {st2 : ModuleMap}
    {e : Option PyErr} (heq : ModuleMap.add h st mod = (h2, st2, e)) :
    ∃ sm2, addLoop mod.pid mod h.length mod.sections (h ++ [pidSections h st mod.pid])
        st.section_to_module = (h2, sm2, e)
      ∧ st2 = (match e with
          | none =>
            (⟨pmSet st.pid_to_sections mod.pid h.length, sm2, st.kernel_start⟩ : ModuleMap)
          | some _ => ⟨st.pid_to_sections, sm2, st.kernel_start⟩) := by
  unfold ModuleMap.add at heq
  rcases hres : addLoop mod.pid mod h.length mod.sections (h ++ [pidSections h st mod.pid])
    st.section_to_module with ⟨h2x, sm2x, ex⟩
  rw [hres] at heq
  cases ex with
  | none =>
      simp only [Prod.mk.injEq] at heq
      obtain ⟨rfl, rfl, rfl⟩ := heq
      exact ⟨sm2x, rfl, rfl⟩
  | some e2 =>
      simp only [Prod.mk.injEq] at heq
      obtain ⟨rfl, rfl, rfl⟩ := heq
      exact ⟨sm2x, rfl, rfl⟩

/-- A successful `add` preserves the index invariant. -/
theorem add_Inv {h : Heap} {st : ModuleMap} {mod : Module} {h2 : Heap} {st2 : ModuleMap}
    (hInv : Inv h st) (heq : ModuleMap.add h st mod = (h2, st2, none)) : Inv h2 st2 := by
  obtain ⟨sm2, hres, hst2⟩ := add_decomp heq
  obtain ⟨hcell, hA, hB, hC, hD⟩ := add_start h st mod.pid hInv
  have hn : h.length < (h ++ [pidSections h st mod.pid]).length := by simp
  have hmain := addLoop_main mod.pid mod h.length mod.sections _ _ _ _ _ hres hn
    (by rw [hcell]; exact hA) (by rw [hcell]; exact hB) (by rw [hcell]; exact hC)
    (by rw [hcell]; exact hD) hInv.wf
  obtain ⟨j1, j2, j3, j4, j5, j6, j7, j8, j9, j10, j11⟩ := hmain
  have hheap := addLoop_heap mod.pid mod h.length mod.sections
    (h ++ [pidSections h st mod.pid]) st.section_to_module
  rw [hres] at hheap
  have hh2len : h2.length = h.length + 1 := by
    have h1 : h2.length = (h ++ [pidSections h st mod.pid]).length := hheap.1
    rw [h1]
    simp
  have hcellother : ∀ i, i < h.length → heapGet h2 i = heapGet h i := by
    intro i hi
    have hne : i ≠ h.length := by omega
    have h1 : heapGet h2 i = heapGet (h ++ [pidSections h st mod.pid]) i :=
      hheap.2 i hne
    rw [h1, heapGet_append_lt hi]
  simp only [] at hst2
  subst hst2
  refine ⟨?_, ?_, ?_, ?_, ?_, j5, pmSet_PMWf hInv.pmwf _ _⟩
  · intro p i hl
    by_cases hp : p = mod.pid
    · subst hp
      rw [lookup_pmSet_self] at hl
      have hi2 : h.length = i := Option.some.inj hl
      rw [← hi2, hh2len]
      exact Nat.lt_succ_self _
    · rw [lookup_pmSet_ne _ _ hp] at hl
      have hlt := hInv.valid p i hl
      exact Nat.lt_of_lt_of_le hlt (by rw [hh2len]; exact Nat.le_succ _)
  · intro p i hl
    by_cases hp : p = mod.pid
    · subst hp
      rw [lookup_pmSet_self] at hl
      cases hl
      exact j1
    · rw [lookup_pmSet_ne _ _ hp] at hl
      rw [hcellother i (hInv.valid p i hl)]
      exact hInv.sorted p i hl
  · intro p i hl
    by_cases hp : p = mod.pid
    · subst hp
      rw [lookup_pmSet_self] at hl
      cases hl
      exact j2
    · rw [lookup_pmSet_ne _ _ hp] at hl
      rw [hcellother i (hInv.valid p i hl)]
      exact hInv.pos p i hl
  · intro p i hl
    by_cases hp : p = mod.pid
    · subst hp
      rw [lookup_pmSet_self] at hl
      cases hl
      exact j3
    · rw [lookup_pmSet_ne _ _ hp] at hl
      rw [hcellother i (hInv.valid p i hl)]
      intro S hS
      obtain ⟨M, hM⟩ := hInv.fwd p i hl S hS
      exact ⟨M, (j6 p S M hp).mpr hM⟩
  · intro p S M hm
    by_cases hp : p = mod.pid
    · subst hp
      refine ⟨h.length, lookup_pmSet_self _ _ _, j4 S M hm⟩
    · obtain ⟨i, hl, hmem⟩ := hInv.bwd p S M ((j6 p S M hp).mp hm)
      refine ⟨i, ?_, ?_⟩
      · rw [lookup_pmSet_ne _ _ hp]
        exact hl
      · rw [hcellother i (hInv.valid p i hl)]
        exact hmem

/-- The comparison `get` makes between a stored section and its sentinel is
exactly point containment. -/
theorem sEq_sentinel (T : SectionDescriptor) (pc : Nat) :
    sEq T (sentinel pc) = T.contains pc := by
  cases hv : T.contains pc with
  | true =>
      rw [contains_iff] at hv
      rw [sEq_iff]
      simp only [sentinel]
      omega
  | false =>
      have hv2 : ¬ (T.runtime_load_base ≤ pc ∧ pc < T.runtime_load_base + T.size) := by
        rw [← contains_iff, hv]
        simp
      rw [sEq_false_iff]
      simp only [sentinel]
      omega

/-- A successful `get`: when a stored section of the (sorted) pid list
contains `pc` below `kernel_start`, `get` returns the module recorded under
`(pid, section)`. -/
theorem get_hit (h : Heap) (st : ModuleMap) (pid pc : Nat) (i : ListId)
    (S : SectionDescriptor) (M : Module)
    (hl : List.lookup pid st.pid_to_sections = some i)
    (hsort : SSorted (heapGet h i))
    (hmem : S ∈ heapGet h i)
    (hc : S.contains pc = true)
    (hks : pc < st.kernel_start)
    (hlk : smLookup st.section_to_module (pid, S) = some M) :
    ModuleMap.get h st pid pc = Except.ok M := by
  have htr : st._translate_pid pid pc = pid := by
    unfold ModuleMap._translate_pid
    rw [if_neg (by omega)]
  have hov : sEq S (sentinel pc) = true := by
    rw [sEq_sentinel]
    exact hc
  obtain ⟨hidx, hslot⟩ := index_complete hsort hmem hov
  have hblt : bisect_left (heapGet h i) (sentinel pc) < (heapGet h i).length := by
    obtain ⟨hlt, _, _⟩ := index_sound hidx
    exact hlt
  have hslotval : (heapGet h i).getD (bisect_left (heapGet h i) (sentinel pc)) default = S := by
    apply hsort.contains_unique (getD_mem hblt) hmem
    · rw [← sEq_sentinel]
      exact hslot
    · exact hc
  unfold ModuleMap.get
  rw [htr, hl]
  show (match _index (heapGet h i) (sentinel pc) with
      | none => Except.error PyErr.addressNotMapped
      | some idx =>
        match smLookup st.section_to_module (pid, (heapGet h i).getD idx default) with
        | none => Except.error PyErr.keyError
        | some m => Except.ok m)
    = Except.ok M
  rw [hidx]
  show (match smLookup st.section_to_module
      (pid, (heapGet h i).getD (bisect_left (heapGet h i) (sentinel pc)) default) with
    | none => Except.error PyErr.keyError
    | some m => Except.ok m) = Except.ok M
  rw [hslotval, hlk]

/-- A missing `get`: a pid with a recorded (sorted) list none of whose
sections contains `pc` yields `AddressNotMapped`. -/
theorem get_miss (h : Heap) (st : ModuleMap) (pid pc : Nat) (i : ListId)
    (hl : List.lookup pid st.pid_to_sections = some i)
    (hsort : SSorted (heapGet h i))
    (hks : pc < st.kernel_start)
    (hmiss : ∀ S ∈ heapGet h i, S.contains pc = false) :
    ModuleMap.get h st pid pc = Except.error PyErr.addressNotMapped := by
  have htr : st._translate_pid pid pc = pid := by
    unfold ModuleMap._translate_pid
    rw [if_neg (by omega)]
  have hidx : _index (heapGet h i) (sentinel pc) = none := by
    rw [index_none_iff hsort]
    intro S hS
    rw [sEq_sentinel]
    exact hmiss S hS
  unfold ModuleMap.get
  rw [htr, hl]
  show (match _index (heapGet h i) (sentinel pc) with
      | none => Except.error PyErr.addressNotMapped
      | some idx =>
        match smLookup st.section_to_module (pid, (heapGet h i).getD idx default) with
        | none => Except.error PyErr.keyError
        | some m => Except.ok m)
    = Except.error PyErr.addressNotMapped
  rw [hidx]

/-! ## Claim C1: a lookup inside an inserted section returns the module -/

/-- C1: in an index satisfying the invariant (per-pid sections pairwise
non-overlapping), after `add(mod)` succeeds, a `get(mod.pid, pc)` with `pc`
below `kernel_start` inside a section `S` the call inserted (`S` is a
section of the module that overlapped neither a previously indexed section
nor a distinct sibling section) returns exactly the module passed to that
`add`. -/
theorem c1_get_inserted (h : Heap) (st : ModuleMap) (mod : Module) (S : SectionDescriptor)
    (pc : Nat) (h2 : Heap) (st2 : ModuleMap)
    (hInv : Inv h st)
    (heq : ModuleMap.add h st mod = (h2, st2, none))
    (hS : S ∈ mod.sections)
    (hnew : ∀ T ∈ pidSections h st mod.pid, sEq T S = false)
    (hsib : ∀ s2 ∈ mod.sections, s2 ≠ S → sEq s2 S = false)
    (hc : S.contains pc = true)
    (hks : pc < st2.kernel_start) :
    ModuleMap.get h2 st2 mod.pid pc = Except.ok mod := by
  obtain ⟨sm2, hres, hst2⟩ := add_decomp heq
  obtain ⟨hcell, hA, hB, hC, hD⟩ := add_start h st mod.pid hInv
  have hn : h.length < (h ++ [pidSections h st mod.pid]).length := by simp
  obtain ⟨j1, j2, j3, j4, j5, j6, j7, j8, j9, j10, j11⟩ :=
    addLoop_main mod.pid mod h.length mod.sections _ _ _ _ _ hres hn
      (by rw [hcell]; exact hA) (by rw [hcell]; exact hB) (by rw [hcell]; exact hC)
      (by rw [hcell]; exact hD) hInv.wf
  have hSpos : 0 < S.size := by
    by_contra hz
    have hzz := j10 ⟨S, hS, by omega⟩
    cases hzz
  have htrack := j11 S hSpos (Or.inr ⟨hS, by rw [hcell]; exact hnew, hsib⟩) rfl
  simp only [] at hst2
  subst hst2
  exact get_hit h2 _ mod.pid pc h.length S mod (lookup_pmSet_self _ _ _) j1 htrack.1
    hc hks htrack.2

/-- Witness for `c1_get_inserted`: after adding `exMod` to a fresh index,
`get(7, 0x1050)` (inside `exSecA`) returns `exMod`. -/
theorem c1_get_inserted_witness :
    ModuleMap.get exState.1 exState.2.1 7 0x1050 = Except.ok exMod :=
  c1_get_inserted [] ModuleMap.init exMod exSecA 0x1050 exState.1 exState.2.1
    Inv_init rfl (by decide)
    (by intro T hT; exact absurd hT (List.not_mem_nil T))
    (by decide) (by decide) (by decide)

/-! ## Claim C3: zero-size section -/

/-- C3 counterexample: adding `exModZ` (sections `[exSecA, exSecZ]`, the
second of size 0) to a fresh index raises `InvalidSectionError`, but the
index state for pid 1 is *not* exactly what it was: `section_to_module` now
holds the entry `(1, exSecA) ↦ exModZ` recorded before the zero-size section
was reached, while before the call it held nothing. -/
theorem c3_counterexample :
    (ModuleMap.add [] ModuleMap.init exModZ).2.2 = some PyErr.invalidSection
    ∧ smLookup (ModuleMap.add [] ModuleMap.init exModZ).2.1.section_to_module (1, exSecA)
        = some exModZ
    ∧ smLookup ModuleMap.init.section_to_module (1, exSecA) = none :=
  ⟨rfl, rfl, rfl⟩

/-- C3 amended: for every module containing a zero-size section, `add` (from
an invariant-satisfying state) raises `InvalidSectionError` and leaves
`_pid_to_sections` — and hence every pid's recorded section sequence —
unchanged; `_section_to_module`, however, keeps the entries already recorded
for sections processed before the zero-size one. -/
theorem c3_amended (h : Heap) (st : ModuleMap) (mod : Module) (h2 : Heap) (st2 : ModuleMap)
    (e : Option PyErr) (hInv : Inv h st)
    (hzero : ∃ s ∈ mod.sections, s.size = 0)
    (heq : ModuleMap.add h st mod = (h2, st2, e)) :
    e = some PyErr.invalidSection
    ∧ st2.pid_to_sections = st.pid_to_sections
    ∧ (∀ p i, List.lookup p st.pid_to_sections = some i → heapGet h2 i = heapGet h i) := by
  obtain ⟨sm2, hres, hst2⟩ := add_decomp heq
  obtain ⟨hcell, hA, hB, hC, hD⟩ := add_start h st mod.pid hInv
  have hn : h.length < (h ++ [pidSections h st mod.pid]).length := by simp
  obtain ⟨j1, j2, j3, j4, j5, j6, j7, j8, j9, j10, j11⟩ :=
    addLoop_main mod.pid mod h.length mod.sections _ _ _ _ _ hres hn
      (by rw [hcell]; exact hA) (by rw [hcell]; exact hB) (by rw [hcell]; exact hC)
      (by rw [hcell]; exact hD) hInv.wf
  have he := j10 hzero
  subst he
  simp only [] at hst2
  have hheap := addLoop_heap mod.pid mod h.length mod.sections
    (h ++ [pidSections h st mod.pid]) st.section_to_module
  rw [hres] at hheap
  refine ⟨rfl, by rw [hst2], ?_⟩
  intro p i hl
  have hi := hInv.valid p i hl
  have hne : i ≠ h.length := Nat.ne_of_lt hi
  have h1 : heapGet h2 i = heapGet (h ++ [pidSections h st mod.pid]) i := hheap.2 i hne
  rw [h1, heapGet_append_lt hi]

/-- Witness for `c3_amended` at the concrete `exModZ`. -/
theorem c3_amended_witness :
    (ModuleMap.add [] ModuleMap.init exModZ).2.2 = some PyErr.invalidSection
    ∧ (ModuleMap.add [] ModuleMap.init exModZ).2.1.pid_to_sections
        = ModuleMap.init.pid_to_sections
    ∧ (∀ p i, List.lookup p ModuleMap.init.pid_to_sections = some i →
        heapGet (ModuleMap.add [] ModuleMap.init exModZ).1 i = heapGet [] i) :=
  c3_amended [] ModuleMap.init exModZ _ _ _ Inv_init ⟨exSecZ, by decide, by decide⟩ rfl

/-! ## Claim C10: a successful `add` always records the pid -/

/-- C10: a successful `add(mod)` always commits a section sequence for
`mod.pid` — the freshly copied cell — even when nothing was inserted, so a
subsequent `get(mod.pid, pc)` with `pc` below `kernel_start` contained in no
indexed section raises `AddressNotMappedError` rather than
`PidNotFoundError`. -/
theorem c10_add_records_pid (h : Heap) (st : ModuleMap) (mod : Module) (h2 : Heap)
    (st2 : ModuleMap) (pc : Nat)
    (hInv : Inv h st)
    (heq : ModuleMap.add h st mod = (h2, st2, none)) :
    List.lookup mod.pid st2.pid_to_sections = some h.length
    ∧ (pc < st2.kernel_start →
        (∀ S ∈ heapGet h2 h.length, S.contains pc = false) →
        ModuleMap.get h2 st2 mod.pid pc = Except.error PyErr.addressNotMapped) := by
  obtain ⟨sm2, hres, hst2⟩ := add_decomp heq
  obtain ⟨hcell, hA, hB, hC, hD⟩ := add_start h st mod.pid hInv
  have hn : h.length < (h ++ [pidSections h st mod.pid]).length := by simp
  obtain ⟨j1, j2, j3, j4, j5, j6, j7, j8, j9, j10, j11⟩ :=
    addLoop_main mod.pid mod h.length mod.sections _ _ _ _ _ hres hn
      (by rw [hcell]; exact hA) (by rw [hcell]; exact hB) (by rw [hcell]; exact hC)
      (by rw [hcell]; exact hD) hInv.wf
  simp only [] at hst2
  subst hst2
  refine ⟨lookup_pmSet_self _ _ _, ?_⟩
  intro hks hmiss
  exact get_miss h2 _ mod.pid pc h.length (lookup_pmSet_self _ _ _) j1 hks hmiss

/-- Witness for `c10_add_records_pid`: adding a module with an empty section
list still records pid 9, and a lookup misses with `AddressNotMapped`. -/
theorem c10_add_records_pid_witness :
    List.lookup 9 (ModuleMap.add [] ModuleMap.init ⟨"e", "/e", 9, []⟩).2.1.pid_to_sections
      = some 0
    ∧ ModuleMap.get (ModuleMap.add [] ModuleMap.init ⟨"e", "/e", 9, []⟩).1
        (ModuleMap.add [] ModuleMap.init ⟨"e", "/e", 9, []⟩).2.1 9 0x1234
      = Except.error PyErr.addressNotMapped := by
  have hmain := c10_add_records_pid [] ModuleMap.init ⟨"e", "/e", 9, []⟩ _ _ 0x1234
    Inv_init rfl
  exact ⟨hmain.1, hmain.2 (by decide) (by decide)⟩

/-! ## Claim C5: removal of absent entries -/

/-- A module none of whose sections gets an `_index` hit leaves the `remove`
loop state untouched. -/
theorem removeLoop_noop (pid : Nat) (n : ListId) :
    ∀ secs (h : Heap) (sm : SMap) (pm : PMap),
      (∀ s ∈ secs, _index (heapGet h n) s = none) →
      removeLoop pid n secs h sm pm = (h, sm, pm, none) := by
  intro secs
  induction secs with
  | nil => intro h sm pm _; rfl
  | cons s rest ih =>
      intro h sm pm hall
      have h1 := hall s (by simp)
      simp only [removeLoop, h1]
      exact ih h sm pm (fun s2 h2 => hall s2 (by simp [h2]))

/-- C5 counterexample: `remove_pid` of a pid with no recorded sequence
raises a `KeyError` instead of being a no-op, and so does `remove` of a
module whose pid has no recorded sequence. -/
theorem c5_counterexample :
    (ModuleMap.remove_pid [] ModuleMap.init 5).2.2 = some PyErr.keyError
    ∧ (ModuleMap.remove [] ModuleMap.init exMod).2.2 = some PyErr.keyError :=
  ⟨rfl, rfl⟩

/-- C5 amended: `remove(module)` is a raise-free no-op when the module's pid
has a recorded sequence but none of the module's sections overlaps an
indexed section (so repeating such a removal is also a no-op); however, when
the module's pid has no recorded sequence `remove` raises `KeyError`, and
`remove_pid` of a pid with no recorded sequence raises `KeyError` (both
leaving the index unchanged). -/
theorem c5_amended (h : Heap) (st : ModuleMap) (mod : Module) (pid : Nat) :
    (List.lookup mod.pid st.pid_to_sections = none →
      ModuleMap.remove h st mod = (h, st, some PyErr.keyError))
    ∧ (List.lookup pid st.pid_to_sections = none →
      ModuleMap.remove_pid h st pid = (h, st, some PyErr.keyError))
    ∧ (∀ i, List.lookup mod.pid st.pid_to_sections = some i →
        SSorted (heapGet h i) →
        (∀ s ∈ mod.sections, ∀ T ∈ heapGet h i, sEq T s = false) →
        ModuleMap.remove h st mod = (h ++ [heapGet h i], st, none)) := by
  refine ⟨?_, ?_, ?_⟩
  · intro hl
    unfold ModuleMap.remove
    rw [hl]
  · intro hl
    unfold ModuleMap.remove_pid
    rw [(pmDelete_none_iff _ _).mpr hl]
  · intro i hl hsort hno
    unfold ModuleMap.remove
    rw [hl]
    have hcell : heapGet (h ++ [heapGet h i]) h.length = heapGet h i := heapGet_append_self h _
    have hidx : ∀ s ∈ mod.sections,
        _index (heapGet (h ++ [heapGet h i]) h.length) s = none := by
      intro s hs
      rw [hcell, index_none_iff hsort]
      intro T hT
      exact hno s hs T hT
    show (match removeLoop mod.pid h.length mod.sections (h ++ [heapGet h i])
        st.section_to_module st.pid_to_sections with
      | (h2, sm2, pm2, e) =>
        (h2, (⟨pm2, sm2, st.kernel_start⟩ : ModuleMap), e)) = (h ++ [heapGet h i], st, none)
    rw [removeLoop_noop mod.pid h.length mod.sections _ _ _ hidx]

/-- A module whose only section sits far from everything indexed for pid 7. -/
def exModFar : Module := ⟨"far", "/far", 7, [⟨"fa", 0x9000, 0, 0x10, true, false, false⟩]⟩

/-- Witness for `c5_amended` at concrete inputs: both raising branches on a
fresh index, and the no-op branch on an index tracking pid 7. -/
theorem c5_amended_witness :
    ModuleMap.remove [] ModuleMap.init exMod = ([], ModuleMap.init, some PyErr.keyError)
    ∧ ModuleMap.remove_pid [] ModuleMap.init 5 = ([], ModuleMap.init, some PyErr.keyError)
    ∧ ModuleMap.remove exState.1 exState.2.1 exModFar
        = (exState.1 ++ [heapGet exState.1 0], exState.2.1, none) :=
  ⟨(c5_amended [] ModuleMap.init exMod 5).1 (by decide),
   (c5_amended [] ModuleMap.init exMod 5).2.1 (by decide),
   (c5_amended exState.1 exState.2.1 exModFar 0).2.2 0 (by decide)
     (by unfold SSorted; decide) (by decide)⟩

/-! ## Claim C6: `remove` matches by overlap, not structural identity -/

/-- C6 counterexample: `exSecA2` overlaps the indexed `exSecA` but is not
structurally identical to it (different name and native base); removing the
module `exModA2` whose only section is `exSecA2` nevertheless deletes
`exSecA` from pid 7's sequence. -/
theorem c6_counterexample :
    exSecA ≠ exSecA2
    ∧ sEq exSecA exSecA2 = true
    ∧ exSecA ∈ heapGet exState.1 0
    ∧ List.lookup 7 exState.2.1.pid_to_sections = some 0
    ∧ (ModuleMap.remove exState.1 exState.2.1 exModA2).2.2 = none
    ∧ List.lookup 7 (ModuleMap.remove exState.1 exState.2.1 exModA2).2.1.pid_to_sections
        = some 1
    ∧ exSecA ∉ heapGet (ModuleMap.remove exState.1 exState.2.1 exModA2).1 1 :=
  ⟨by decide, by decide, by decide, by decide, rfl, rfl, by decide⟩

/-- C6 amended: `remove` locates the section to delete with `_index`, i.e.
by the overlap-equality contract, not by exact structural match.  In an
invariant-satisfying index, removing a module whose (single) section `S` has
the same runtime base and size as an indexed section `T` — even when `T` is
structurally different from `S` — succeeds, deletes `T` from the pid's
sequence, and retains every other indexed section. -/
theorem c6_amended (h : Heap) (st : ModuleMap) (mod : Module) (S T : SectionDescriptor)
    (i : ListId)
    (hInv : Inv h st)
    (hmod : mod.sections = [S])
    (hl : List.lookup mod.pid st.pid_to_sections = some i)
    (hT : T ∈ heapGet h i)
    (hb : T.runtime_load_base = S.runtime_load_base)
    (hs : T.size = S.size) :
    ∃ h2 sm2 pm2,
      ModuleMap.remove h st mod = (h2, ⟨pm2, sm2, st.kernel_start⟩, none)
      ∧ List.lookup mod.pid pm2 = some h.length
      ∧ T ∉ heapGet h2 h.length
      ∧ (∀ U ∈ heapGet h i, U ≠ T → U ∈ heapGet h2 h.length) := by
  have hsort := hInv.sorted _ _ hl
  have hTpos : 0 < T.size := hInv.pos _ _ hl T hT
  have hov : sEq T S = true := sEq_of_keyEq hb hs hTpos
  have hcell : heapGet (h ++ [heapGet h i]) h.length = heapGet h i := heapGet_append_self h _
  have hl1sort : SSorted (heapGet (h ++ [heapGet h i]) h.length) := by
    rw [hcell]; exact hsort
  have hT1 : T ∈ heapGet (h ++ [heapGet h i]) h.length := by
    rw [hcell]; exact hT
  obtain ⟨hidx, hslot⟩ := index_complete hl1sort hT1 hov
  obtain ⟨hrlt, _, _⟩ := index_sound hidx
  have huniq : ∀ U ∈ heapGet (h ++ [heapGet h i]) h.length, sEq U S = true → U = T := by
    rw [hcell]
    intro U hU hUov
    obtain ⟨k, hk, hkU⟩ := List.mem_iff_getElem.mp hU
    obtain ⟨k2, hk2, hk2T⟩ := List.mem_iff_getElem.mp hT
    rcases Nat.lt_trichotomy k k2 with hlt | heqk | hlt
    · have hp := List.pairwise_iff_getElem.mp hsort k k2 hk hk2 hlt
      rw [hkU, hk2T, sLt_iff] at hp
      rw [sEq_iff] at hUov
      omega
    · subst heqk
      rw [← hkU, ← hk2T]
    · have hp := List.pairwise_iff_getElem.mp hsort k2 k hk2 hk hlt
      rw [hkU, hk2T, sLt_iff] at hp
      rw [sEq_iff] at hUov
      omega
  have hslotT : (heapGet (h ++ [heapGet h i]) h.length).getD
      (bisect_left (heapGet (h ++ [heapGet h i]) h.length) S) default = T :=
    huniq _ (getD_mem hrlt) hslot
  obtain ⟨M, hM⟩ := hInv.fwd _ _ hl T hT
  have hkey : keyEq (mod.pid, T) (mod.pid, S) = true := by
    rw [keyEq_pair]
    exact ⟨rfl, hb, hs, hTpos⟩
  cases hdel : smDelete st.section_to_module (mod.pid, S) with
  | none =>
      have hfalse := (smDelete_none_iff _ _).mp hdel ((mod.pid, T), M) hM
      rw [hfalse] at hkey
      cases hkey
  | some sm2 =>
      have hn1 : h.length < (h ++ [heapGet h i]).length := by simp
      refine ⟨heapSet (h ++ [heapGet h i]) h.length
          ((heapGet (h ++ [heapGet h i]) h.length).eraseIdx
            (bisect_left (heapGet (h ++ [heapGet h i]) h.length) S)),
        sm2, pmSet st.pid_to_sections mod.pid h.length, ?_, lookup_pmSet_self _ _ _, ?_, ?_⟩
      · unfold ModuleMap.remove
        rw [hl, hmod]
        simp only [removeLoop, hidx, hdel]
      · rw [heapGet_heapSet_self hn1]
        intro hmem2
        rw [List.eraseIdx_eq_take_drop_succ] at hmem2
        rcases List.mem_append.mp hmem2 with h1 | h1
        · obtain ⟨k, hk, hkT⟩ := List.mem_iff_getElem.mp h1
          have hklen := hk
          simp only [List.length_take] at hklen
          have hkr : k < bisect_left (heapGet (h ++ [heapGet h i]) h.length) S := by omega
          have hkl : k < (heapGet (h ++ [heapGet h i]) h.length).length := by omega
          rw [List.getElem_take] at hkT
          have hp := List.pairwise_iff_getElem.mp hl1sort k _ hkl hrlt hkr
          rw [hkT] at hp
          rw [List.getD_eq_getElem _ default hrlt] at hslotT
          rw [hslotT, sLt_iff] at hp
          omega
        · obtain ⟨k, hk, hkT⟩ := List.mem_iff_getElem.mp h1
          have hklen := hk
          simp only [List.length_drop] at hklen
          rw [List.getElem_drop] at hkT
          have hkl : bisect_left (heapGet (h ++ [heapGet h i]) h.length) S + 1 + k
              < (heapGet (h ++ [heapGet h i]) h.length).length := by omega
          have hp := List.pairwise_iff_getElem.mp hl1sort _ _ hrlt hkl (by omega)
          rw [hkT] at hp
          rw [List.getD_eq_getElem _ default hrlt] at hslotT
          rw [hslotT, sLt_iff] at hp
          omega
      · intro U hU hUT
        rw [heapGet_heapSet_self hn1]
        obtain ⟨k, hk, hkU⟩ := List.mem_iff_getElem.mp (by rw [hcell]; exact hU :
          U ∈ heapGet (h ++ [heapGet h i]) h.length)
        have hkr : k ≠ bisect_left (heapGet (h ++ [heapGet h i]) h.length) S := by
          intro hkk
          apply hUT
          have h1 : U = (heapGet (h ++ [heapGet h i]) h.length).getD k default := by
            rw [List.getD_eq_getElem _ default hk]
            exact hkU.symm
          rw [h1, hkk]
          exact hslotT
        rw [← hkU]
        exact getElem_mem_eraseIdx hk hkr

/-- Witness for `c6_amended`: removing `exModA2` (section `exSecA2`, same
runtime range as `exSecA` but structurally different) deletes `exSecA` and
keeps `exSecB`. -/
theorem c6_amended_witness :
    ∃ h2 sm2 pm2,
      ModuleMap.remove exState.1 exState.2.1 exModA2
        = (h2, ⟨pm2, sm2, exState.2.1.kernel_start⟩, none)
      ∧ List.lookup exModA2.pid pm2 = some exState.1.length
      ∧ exSecA ∉ heapGet h2 exState.1.length
      ∧ (∀ U ∈ heapGet exState.1 0, U ≠ exSecA → U ∈ heapGet h2 exState.1.length) :=
  c6_amended exState.1 exState.2.1 exModA2 exSecA2 exSecA 0
    (add_Inv Inv_init
      (show ModuleMap.add [] ModuleMap.init exMod = (exState.1, exState.2.1, none) from rfl))
    (by decide) (by decide) (by decide) (by decide) (by decide)

/-! ## Claim C4: invariant preservation -/

/-- In a sorted positive-size list, the element at `idx` does not survive
`eraseIdx idx` (it cannot occur at a second position). -/
theorem getD_not_mem_eraseIdx {l : List SectionDescriptor} (hsort : SSorted l)
    (hpos : ∀ U ∈ l, 0 < U.size) {idx : Nat} (hidx : idx < l.length) :
    l.getD idx default ∉ l.eraseIdx idx := by
  intro hmem
  rw [List.eraseIdx_eq_take_drop_succ] at hmem
  have hTpos : 0 < (l.getD idx default).size := hpos _ (getD_mem hidx)
  rcases List.mem_append.mp hmem with h1 | h1
  · obtain ⟨k, hk, hkT⟩ := List.mem_iff_getElem.mp h1
    have hklen := hk
    simp only [List.length_take] at hklen
    have hkl : k < l.length := by omega
    rw [List.getElem_take] at hkT
    have hp := List.pairwise_iff_getElem.mp hsort k idx hkl hidx (by omega)
    rw [hkT, List.getD_eq_getElem _ default hidx, sLt_iff] at hp
    rw [List.getD_eq_getElem _ default hidx] at hTpos
    omega
  · obtain ⟨k, hk, hkT⟩ := List.mem_iff_getElem.mp h1
    have hklen := hk
    simp only [List.length_drop] at hklen
    rw [List.getElem_drop] at hkT
    have hkl : idx + 1 + k < l.length := by omega
    have hp := List.pairwise_iff_getElem.mp hsort idx (idx + 1 + k) hidx hkl (by omega)
    rw [hkT, List.getD_eq_getElem _ default hidx, sLt_iff] at hp
    rw [List.getD_eq_getElem _ default hidx] at hTpos
    omega

/-- A member of a sorted positive-size list distinct from the element at
`idx` survives `eraseIdx idx`. -/
theorem mem_eraseIdx_of_ne {l : List SectionDescriptor} {S : SectionDescriptor}
    {idx : Nat} (hidx : idx < l.length) (hS : S ∈ l)
    (hne : S ≠ l.getD idx default) : S ∈ l.eraseIdx idx := by
  obtain ⟨k, hk, hkS⟩ := List.mem_iff_getElem.mp hS
  have hkne : k ≠ idx := by
    intro hkk
    apply hne
    rw [← hkS, List.getD_eq_getElem _ default hidx]
    subst hkk
    rfl
  rw [← hkS]
  exact getElem_mem_eraseIdx hk hkne

/-- The main induction on the `remove` loop.  From a sorted, positive-sized,
invariant-mirrored cell `n`, the loop keeps the cell sorted and positive,
keeps the key maps well-formed, leaves other pids' entries and lookups
untouched, commits only the cell `n` (or leaves the original id), and — when
it completes without raising — leaves the cell and the pid's map entries
mirroring each other. -/
theorem removeLoop_main (pid : Nat) (n : ListId) :
    ∀ (secs : List SectionDescriptor) (h : Heap) (sm : SMap) (pm : PMap)
      (h2 : Heap) (sm2 : SMap) (pm2 : PMap) (e : Option PyErr),
      removeLoop pid n secs h sm pm = (h2, sm2, pm2, e) →
      n < h.length →
      SSorted (heapGet h n) →
      (∀ S ∈ heapGet h n, 0 < S.size) →
      (∀ S ∈ heapGet h n, ∃ M, ((pid, S), M) ∈ sm) →
      (∀ S M, ((pid, S), M) ∈ sm → S ∈ heapGet h n) →
      SMWf sm →
      SSorted (heapGet h2 n)
      ∧ (∀ S ∈ heapGet h2 n, 0 < S.size)
      ∧ SMWf sm2
      ∧ (∀ q S M, q ≠ pid → (((q, S), M) ∈ sm2 ↔ ((q, S), M) ∈ sm))
      ∧ (∀ q, q ≠ pid → List.lookup q pm2 = List.lookup q pm)
      ∧ (∀ w, List.lookup pid pm = some w →
          ∃ j, List.lookup pid pm2 = some j ∧ (j = w ∨ j = n))
      ∧ (e = none →
          (∀ w, List.lookup pid pm = some w → heapGet h w = heapGet h n →
            ∃ j, List.lookup pid pm2 = some j ∧ heapGet h2 j = heapGet h2 n)
          ∧ (∀ S ∈ heapGet h2 n, ∃ M, ((pid, S), M) ∈ sm2)
          ∧ (∀ S M, ((pid, S), M) ∈ sm2 → S ∈ heapGet h2 n))
      ∧ (PMWf pm → PMWf pm2) := by
  intro secs
  induction secs with
  | nil =>
      intro h sm pm h2 sm2 pm2 e heq hn hA hB hC hD hE
      simp only [removeLoop, Prod.mk.injEq] at heq
      obtain ⟨rfl, rfl, rfl, rfl⟩ := heq
      refine ⟨hA, hB, hE, fun q S M _ => Iff.rfl, fun q _ => rfl, ?_, ?_, fun hw => hw⟩
      · intro w hw
        exact ⟨w, hw, Or.inl rfl⟩
      · intro _
        refine ⟨?_, hC, hD⟩
        intro w hw hcont
        exact ⟨w, hw, hcont⟩
  | cons s rest ih =>
      intro h sm pm h2 sm2 pm2 e heq hn hA hB hC hD hE
      cases hidx : _index (heapGet h n) s with
      | none =>
          simp only [removeLoop, hidx] at heq
          exact ih h sm pm h2 sm2 pm2 e heq hn hA hB hC hD hE
      | some idx =>
          obtain ⟨hidxlt, hseq, _⟩ := index_sound hidx
          have hTmem : (heapGet h n).getD idx default ∈ heapGet h n := getD_mem hidxlt
          have hTpos : 0 < ((heapGet h n).getD idx default).size := hB _ hTmem
          cases hdel : smDelete sm (pid, s) with
          | none =>
              simp only [removeLoop, hidx, hdel, Prod.mk.injEq] at heq
              obtain ⟨rfl, rfl, rfl, rfl⟩ := heq
              have hcell : heapGet (heapSet h n ((heapGet h n).eraseIdx idx)) n
                  = (heapGet h n).eraseIdx idx := heapGet_heapSet_self hn _
              refine ⟨?_, ?_, hE, fun q S M _ => Iff.rfl, fun q _ => rfl, ?_, ?_,
                fun hw => hw⟩
              · rw [hcell]
                exact eraseIdx_sorted hA idx
              · rw [hcell]
                intro S hS
                exact hB S (mem_of_mem_eraseIdx hS)
              · intro w hw
                exact ⟨w, hw, Or.inl rfl⟩
              · intro hnone
                cases hnone
          | some sm1 =>
              simp only [removeLoop, hidx, hdel] at heq
              -- identify the deleted entry's section with the bisect hit
              obtain ⟨pre, entry, post, hsplit, hkentry, hpreno, hsm1⟩ := smDelete_some hdel
              obtain ⟨⟨q0, U⟩, M0⟩ := entry
              have hq0 : q0 = pid ∧ U.runtime_load_base = s.runtime_load_base
                  ∧ U.size = s.size ∧ 0 < U.size := by
                have := hkentry
                rw [keyEq_pair] at this
                exact this
              obtain ⟨hq0eq, hUb, hUs, hUpos⟩ := hq0
              rw [hq0eq] at hsplit
              have hUmem : U ∈ heapGet h n := hD U M0 (by rw [hsplit]; simp)
              have hUT : U = (heapGet h n).getD idx default := by
                obtain ⟨k, hk, hkU⟩ := List.mem_iff_getElem.mp hUmem
                have hknotlt : ¬ k < idx := by
                  intro hklt
                  have hp := index_prefix hA hidx k hklt
                  rw [List.getD_eq_getElem _ default hk, hkU, sLt_iff] at hp
                  omega
                by_cases hkgt : idx < k
                · exfalso
                  have hp := List.pairwise_iff_getElem.mp hA idx k hidxlt hk hkgt
                  rw [hkU, sLt_iff] at hp
                  rw [← List.getD_eq_getElem _ default hidxlt] at hp
                  rw [sEq_iff] at hseq
                  omega
                · have hkeq : k = idx := by omega
                  rw [← hkU, List.getD_eq_getElem _ default hidxlt]
                  subst hkeq
                  rfl
              -- membership in the shrunk map
              have hmemdel := mem_smDelete hE hdel
              -- the new cell
              have hcell : heapGet (heapSet h n ((heapGet h n).eraseIdx idx)) n
                  = (heapGet h n).eraseIdx idx := heapGet_heapSet_self hn _
              have hTout : (heapGet h n).getD idx default ∉ (heapGet h n).eraseIdx idx :=
                getD_not_mem_eraseIdx hA hB hidxlt
              have hA1 : SSorted (heapGet (heapSet h n ((heapGet h n).eraseIdx idx)) n) := by
                rw [hcell]
                exact eraseIdx_sorted hA idx
              have hB1 : ∀ S ∈ heapGet (heapSet h n ((heapGet h n).eraseIdx idx)) n,
                  0 < S.size := by
                rw [hcell]
                intro S hS
                exact hB S (mem_of_mem_eraseIdx hS)
              have hC1 : ∀ S ∈ heapGet (heapSet h n ((heapGet h n).eraseIdx idx)) n,
                  ∃ M, ((pid, S), M) ∈ sm1 := by
                rw [hcell]
                intro S hS
                obtain ⟨M, hM⟩ := hC S (mem_of_mem_eraseIdx hS)
                refine ⟨M, (hmemdel _).mpr ⟨hM, ?_⟩⟩
                cases hkv : keyEq (pid, S) (pid, s) with
                | false => rfl
                | true =>
                    exfalso
                    rw [keyEq_pair] at hkv
                    obtain ⟨-, hSb, hSs, hSpos2⟩ := hkv
                    have hST : S = (heapGet h n).getD idx default := by
                      obtain ⟨k, hk, hkS⟩ := List.mem_iff_getElem.mp
                        (mem_of_mem_eraseIdx hS)
                      have hknotlt : ¬ k < idx := by
                        intro hklt
                        have hp := index_prefix hA hidx k hklt
                        rw [List.getD_eq_getElem _ default hk, hkS, sLt_iff] at hp
                        omega
                      by_cases hkgt : idx < k
                      · exfalso
                        have hp := List.pairwise_iff_getElem.mp hA idx k hidxlt hk hkgt
                        rw [hkS, sLt_iff] at hp
                        rw [← List.getD_eq_getElem _ default hidxlt] at hp
                        rw [sEq_iff] at hseq
                        omega
                      · have hkeq : k = idx := by omega
                        rw [← hkS, List.getD_eq_getElem _ default hidxlt]
                        subst hkeq
                        rfl
                    rw [← hST] at hTout
                    exact hTout hS
              have hD1 : ∀ S M, ((pid, S), M) ∈ sm1 →
                  S ∈ heapGet (heapSet h n ((heapGet h n).eraseIdx idx)) n := by
                rw [hcell]
                intro S M hM
                obtain ⟨hMsm, hMkey⟩ := (hmemdel _).mp hM
                have hSmem := hD S M hMsm
                refine mem_eraseIdx_of_ne hidxlt hSmem ?_
                intro hST
                rw [hST] at hMkey
                have : keyEq (pid, (heapGet h n).getD idx default) (pid, s) = true := by
                  rw [keyEq_pair]
                  rw [← hUT]
                  exact ⟨rfl, hUb, hUs, hUpos⟩
                rw [this] at hMkey
                cases hMkey
              have hE1 : SMWf sm1 := by
                rw [hsm1]
                rw [hsplit] at hE
                exact List.Pairwise.sublist
                  ((List.Sublist.refl pre).append (List.sublist_cons_self _ post)) hE
              have hn1 : n < (heapSet h n ((heapGet h n).eraseIdx idx)).length := by
                rw [length_heapSet]
                exact hn
              obtain ⟨j1, j2, j3, j4, j5, j6, j7, j8⟩ :=
                ih _ _ _ h2 sm2 pm2 e heq hn1 hA1 hB1 hC1 hD1 hE1
              refine ⟨j1, j2, j3, ?_, ?_, ?_, ?_, ?_⟩
              · intro q S M hq
                rw [j4 q S M hq]
                rw [hmemdel ((q, S), M)]
                constructor
                · intro hh; exact hh.1
                · intro hh
                  refine ⟨hh, ?_⟩
                  simp only [keyEq]
                  have : decide (q = pid) = false := by simp [hq]
                  rw [this]
                  rfl
              · intro q hq
                rw [j5 q hq, lookup_pmSet_ne _ _ hq]
              · intro w hw
                obtain ⟨j, hj, hjd⟩ := j6 n (lookup_pmSet_self _ _ _)
                refine ⟨j, hj, ?_⟩
                rcases hjd with rfl | rfl
                · exact Or.inr rfl
                · exact Or.inr rfl
              · intro hnone
                obtain ⟨k1, k2, k3⟩ := j7 hnone
                refine ⟨?_, k2, k3⟩
                intro w hw hcont
                exact k1 n (lookup_pmSet_self _ _ _) rfl
              · intro hwf
                exact j8 (pmSet_PMWf hwf _ _)

/-- A successful `remove` preserves the index invariant. -/
theorem remove_Inv {h : Heap} {st : ModuleMap} {mod : Module} {h2 : Heap} {st2 : ModuleMap}
    (hInv : Inv h st) (heq : ModuleMap.remove h st mod = (h2, st2, none)) : Inv h2 st2 := by
  unfold ModuleMap.remove at heq
  cases hl : List.lookup mod.pid st.pid_to_sections with
  | none =>
      rw [hl] at heq
      simp only [Prod.mk.injEq] at heq
      obtain ⟨-, -, hbad⟩ := heq
      cases hbad
  | some i =>
      rw [hl] at heq
      rcases hres : removeLoop mod.pid h.length mod.sections (h ++ [heapGet h i])
        st.section_to_module st.pid_to_sections with ⟨h2x, sm2x, pm2x, ex⟩
      have heq2 : (match removeLoop mod.pid h.length mod.sections (h ++ [heapGet h i])
            st.section_to_module st.pid_to_sections with
          | (h2, sm2, pm2, e) =>
            (h2, ({ pid_to_sections := pm2, section_to_module := sm2,
                    kernel_start := st.kernel_start } : ModuleMap), e))
          = (h2, st2, none) := heq
      rw [hres] at heq2
      have heq3 : (h2x, (⟨pm2x, sm2x, st.kernel_start⟩ : ModuleMap), ex)
          = (h2, st2, none) := heq2
      simp only [Prod.mk.injEq] at heq3
      obtain ⟨rfl, hst2, hex⟩ := heq3
      subst hst2
      subst hex
      have hiv : i < h.length := hInv.valid _ _ hl
      have hcell : heapGet (h ++ [heapGet h i]) h.length = heapGet h i :=
        heapGet_append_self h _
      have hn : h.length < (h ++ [heapGet h i]).length := by simp
      have hA : SSorted (heapGet (h ++ [heapGet h i]) h.length) := by
        rw [hcell]; exact hInv.sorted _ _ hl
      have hB : ∀ S ∈ heapGet (h ++ [heapGet h i]) h.length, 0 < S.size := by
        rw [hcell]; exact hInv.pos _ _ hl
      have hC : ∀ S ∈ heapGet (h ++ [heapGet h i]) h.length,
          ∃ M, ((mod.pid, S), M) ∈ st.section_to_module := by
        rw [hcell]; exact hInv.fwd _ _ hl
      have hD : ∀ S M, ((mod.pid, S), M) ∈ st.section_to_module →
          S ∈ heapGet (h ++ [heapGet h i]) h.length := by
        rw [hcell]
        intro S M hm
        obtain ⟨i2, hl2, hmem⟩ := hInv.bwd _ _ _ hm
        rw [hl] at hl2
        cases hl2
        exact hmem
      obtain ⟨r1, r2, r3, r4, r5, r6, r7, r8⟩ :=
        removeLoop_main mod.pid h.length mod.sections _ _ _ _ _ _ _ hres hn hA hB hC hD
          hInv.wf
      obtain ⟨rc1, rc2, rc3⟩ := r7 rfl
      have hheap := removeLoop_heap mod.pid h.length mod.sections (h ++ [heapGet h i])
        st.section_to_module st.pid_to_sections
      rw [hres] at hheap
      have hh2len : h2x.length = h.length + 1 := by
        have hx : h2x.length = (h ++ [heapGet h i]).length := hheap.1
        rw [hx]; simp
      have hcellother : ∀ j, j < h.length → heapGet h2x j = heapGet h j := by
        intro j hj
        have hne : j ≠ h.length := Nat.ne_of_lt hj
        have hx : heapGet h2x j = heapGet (h ++ [heapGet h i]) j := hheap.2 j hne
        rw [hx, heapGet_append_lt hj]
      obtain ⟨j0, hjl, hjd⟩ := r6 i hl
      obtain ⟨j1, hjl1, hjcont⟩ := rc1 i hl
        (by rw [heapGet_append_lt hiv, hcell])
      have hjj : j0 = j1 := Option.some.inj (hjl.symm.trans hjl1)
      subst hjj
      refine ⟨?_, ?_, ?_, ?_, ?_, r3, r8 hInv.pmwf⟩
      · intro p ip hlp
        by_cases hp : p = mod.pid
        · subst hp
          rw [hjl] at hlp
          have hip : ip = j0 := (Option.some.inj hlp).symm
          subst hip
          rcases hjd with rfl | rfl
          · exact Nat.lt_of_lt_of_le hiv (by rw [hh2len]; exact Nat.le_succ _)
          · rw [hh2len]; exact Nat.lt_succ_self _
        · rw [r5 p hp] at hlp
          exact Nat.lt_of_lt_of_le (hInv.valid p ip hlp) (by rw [hh2len]; exact Nat.le_succ _)
      · intro p ip hlp
        by_cases hp : p = mod.pid
        · subst hp
          rw [hjl] at hlp
          have hip : ip = j0 := (Option.some.inj hlp).symm
          subst hip
          rw [hjcont]
          exact r1
        · rw [r5 p hp] at hlp
          rw [hcellother ip (hInv.valid p ip hlp)]
          exact hInv.sorted p ip hlp
      · intro p ip hlp
        by_cases hp : p = mod.pid
        · subst hp
          rw [hjl] at hlp
          have hip : ip = j0 := (Option.some.inj hlp).symm
          subst hip
          rw [hjcont]
          exact r2
        · rw [r5 p hp] at hlp
          rw [hcellother ip (hInv.valid p ip hlp)]
          exact hInv.pos p ip hlp
      · intro p ip hlp
        by_cases hp : p = mod.pid
        · subst hp
          rw [hjl] at hlp
          have hip : ip = j0 := (Option.some.inj hlp).symm
          subst hip
          rw [hjcont]
          exact rc2
        · rw [r5 p hp] at hlp
          rw [hcellother ip (hInv.valid p ip hlp)]
          intro S hS
          obtain ⟨M, hM⟩ := hInv.fwd p ip hlp S hS
          exact ⟨M, (r4 p S M hp).mpr hM⟩
      · intro p S M hm
        by_cases hp : p = mod.pid
        · subst hp
          have hmem := rc3 S M hm
          rw [← hjcont] at hmem
          exact ⟨j0, hjl, hmem⟩
        · obtain ⟨i2, hl2, hmem⟩ := hInv.bwd p S M ((r4 p S M hp).mp hm)
          refine ⟨i2, ?_, ?_⟩
          · rw [r5 p hp]; exact hl2
          · rw [hcellother i2 (hInv.valid p i2 hl2)]
            exact hmem

/-- A successful `remove_pid` preserves the index invariant. -/
theorem remove_pid_Inv {h : Heap} {st : ModuleMap} {pid : Nat} {h2 : Heap} {st2 : ModuleMap}
    (hInv : Inv h st) (heq : ModuleMap.remove_pid h st pid = (h2, st2, none)) : Inv h2 st2 := by
  unfold ModuleMap.remove_pid at heq
  cases hdel : pmDelete st.pid_to_sections pid with
  | none =>
      rw [hdel] at heq
      simp only [Prod.mk.injEq] at heq
      obtain ⟨-, -, hbad⟩ := heq
      cases hbad
  | some pm2 =>
      rw [hdel] at heq
      have hposkeys : ∀ e ∈ st.section_to_module, keyEq e.1 e.1 = true := by
        intro e he
        obtain ⟨⟨q, S⟩, M⟩ := e
        obtain ⟨i, hl, hmem⟩ := hInv.bwd q S M he
        exact keyEq_refl (hInv.pos _ _ hl S hmem)
      rw [smDeleteAll_filter pid st.section_to_module hposkeys] at heq
      simp only [Prod.mk.injEq] at heq
      obtain ⟨rfl, hst2, -⟩ := heq
      subst hst2
      obtain ⟨hdl1, hdl2, hdl3⟩ := pmDelete_lookup hInv.pmwf hdel
      refine ⟨?_, ?_, ?_, ?_, ?_, ?_, hdl3⟩
      · intro p ip hlp
        by_cases hp : p = pid
        · subst hp; rw [hdl1] at hlp; cases hlp
        · rw [hdl2 p hp] at hlp
          exact hInv.valid p ip hlp
      · intro p ip hlp
        by_cases hp : p = pid
        · subst hp; rw [hdl1] at hlp; cases hlp
        · rw [hdl2 p hp] at hlp
          exact hInv.sorted p ip hlp
      · intro p ip hlp
        by_cases hp : p = pid
        · subst hp; rw [hdl1] at hlp; cases hlp
        · rw [hdl2 p hp] at hlp
          exact hInv.pos p ip hlp
      · intro p ip hlp
        by_cases hp : p = pid
        · subst hp; rw [hdl1] at hlp; cases hlp
        · rw [hdl2 p hp] at hlp
          intro S hS
          obtain ⟨M, hM⟩ := hInv.fwd p ip hlp S hS
          refine ⟨M, List.mem_filter.mpr ⟨hM, by simp [hp]⟩⟩
      · intro p S M hm
        obtain ⟨hmem, hpred⟩ := List.mem_filter.mp hm
        have hp : p ≠ pid := by simpa using hpred
        obtain ⟨i2, hl2, hmem2⟩ := hInv.bwd p S M hmem
        refine ⟨i2, ?_, hmem2⟩
        rw [hdl2 p hp]
        exact hl2
      · exact SMWf_sublist (List.filter_sublist _) hInv.wf

/-- C4 counterexample: from the empty index (which satisfies the invariant),
the `add` of `exModZ` — an operation of the index — leaves a
`section_to_module` entry for `(1, exSecA)` with no corresponding section in
`pid_to_sections` (pid 1 has no recorded sequence at all), violating the
entry-for-entry correspondence half of the invariant. -/
theorem c4_counterexample :
    Inv [] ModuleMap.init
    ∧ ((1, exSecA), exModZ) ∈ (ModuleMap.add [] ModuleMap.init exModZ).2.1.section_to_module
    ∧ List.lookup 1 (ModuleMap.add [] ModuleMap.init exModZ).2.1.pid_to_sections = none
    ∧ ¬ Inv (ModuleMap.add [] ModuleMap.init exModZ).1
        (ModuleMap.add [] ModuleMap.init exModZ).2.1 := by
  refine ⟨Inv_init, by decide, by decide, ?_⟩
  intro hI
  obtain ⟨i, hl, -⟩ := hI.bwd 1 exSecA exModZ (by decide)
  have hnone : List.lookup 1 (ModuleMap.add [] ModuleMap.init exModZ).2.1.pid_to_sections
      = none := by decide
  rw [hnone] at hl
  cases hl

/-- C4 amended: every `add`, `remove` or `remove_pid` call that completes
without raising preserves the index invariant (per-pid sections sorted by
runtime address and pairwise non-overlapping, and the two mappings mirroring
each other entry-for-entry); a call that raises can leave the invariant
broken. -/
theorem c4_amended (h : Heap) (st : ModuleMap) (op : MOp) (h2 : Heap) (st2 : ModuleMap)
    (hInv : Inv h st) (heq : runOp h st op = (h2, st2, none)) : Inv h2 st2 := by
  cases op with
  | opAdd mod => exact add_Inv hInv heq
  | opRemove mod => exact remove_Inv hInv heq
  | opRemovePid pid => exact remove_pid_Inv hInv heq

/-- Witness for `c4_amended`: the successful `add` of `exMod` into the empty
index yields an invariant-satisfying state. -/
theorem c4_amended_witness :
    Inv (runOp [] ModuleMap.init (MOp.opAdd exMod)).1
      (runOp [] ModuleMap.init (MOp.opAdd exMod)).2.1 :=
  c4_amended [] ModuleMap.init (MOp.opAdd exMod) _ _ Inv_init rfl

end S2E
